import Mathlib

/-!
Shallow embedding of `belts/main.py`, a deterministic Dinic max-flow
solver for the "Belts with Bounds and Node Caps" problem.

The Python program works on IEEE floats; here every number is a
rational (`ℚ`), with the program's explicit tolerances (`EPS = 1e-9`,
the phase tolerance `1e-6`, the output clamp `1e-12`) kept as exact
rational constants.  The Python `while` loops and the recursive
blocking-flow search are modelled with an explicit fuel argument; the
fuel bounds chosen below dominate the number of iterations any actual
run performs (BFS pops at most one queue entry per node, Dinic runs at
most `n` phases, a phase pushes at most one augmenting path per arc).
-/

namespace Belts

/-- Numeric tolerance `EPS = 1e-9` from the source. -/
def EPS : ℚ := 1 / 1000000000

/-- `class Edge`: a residual arc holding the target node, the position
of its paired reverse arc inside the target's adjacency list, the
current remaining capacity and the original capacity. -/
structure Edge where
  to_ : Nat
  rev : Nat
  cap : ℚ
  orig : ℚ
deriving DecidableEq

/-- The adjacency lists `Dinic.g`. -/
abbrev Graph := List (List Edge)

/-- `self.g[u]`. -/
def listAt (g : Graph) (u : Nat) : List Edge := g.getD u []

/-- `self.g[u][i]`. -/
def getArc (g : Graph) (u i : Nat) : Edge := (listAt g u).getD i ⟨0, 0, 0, 0⟩

/-- Apply `f` to the `n`-th entry of a list (identity when out of range). -/
def updAt {α : Type} (l : List α) (n : Nat) (f : α → α) : List α :=
  match l, n with
  | [], _ => []
  | a :: l, 0 => f a :: l
  | a :: l, n + 1 => a :: updAt l n f

/-- In-place update `self.g[u][i].cap = f(self.g[u][i].cap)`. -/
def modCap (g : Graph) (u i : Nat) (f : ℚ → ℚ) : Graph :=
  updAt g u (fun l => updAt l i (fun e => { e with cap := f e.cap }))

/-- `Dinic.add_edge`: append the forward arc to `u`'s list and the
paired zero-capacity reverse arc to `v`'s list, each storing the
other's list position; return the updated graph together with the
handle `(u, position-of-forward-arc)`.  The positions are computed
exactly as in the source (`len(vlist)` before the first append,
`len(ulist) - 1` after it), including its behaviour when `u = v`. -/
def add_edge (g : Graph) (u v : Nat) (c : ℚ) : Graph × Nat × Nat :=
  let fwd : Edge := ⟨v, (listAt g v).length, c, c⟩
  let g1 := updAt g u (fun l => l ++ [fwd])
  let pos := (listAt g1 u).length - 1
  let bwd : Edge := ⟨u, pos, 0, 0⟩
  let g2 := updAt g1 v (fun l => l ++ [bwd])
  (g2, u, pos)

/-- Total number of stored arcs. -/
def numArcs (g : Graph) : Nat := (g.map List.length).sum

/-- `level[u]`, with the Python out-of-range reading `-1`. -/
def levAt (level : List Int) (u : Nat) : Int := level.getD u (-1)

/-- `it[u]`. -/
def itAt (it : List Nat) (u : Nat) : Nat := it.getD u 0

/-- One arc relaxation inside `Dinic.bfs`: if the arc has residual
capacity above `EPS` and its head is unlevelled, level the head one
deeper than `u` and enqueue it. -/
def bfsStep (u : Nat) (acc : List Int × List Nat) (e : Edge) : List Int × List Nat :=
  if EPS < e.cap ∧ levAt acc.1 e.to_ < 0 then
    (acc.1.set e.to_ (levAt acc.1 u + 1), acc.2 ++ [e.to_])
  else acc

/-- The queue loop of `Dinic.bfs`. -/
def bfsLoop (g : Graph) : Nat → List Nat → List Int → List Int
  | 0, _, level => level
  | _ + 1, [], level => level
  | fuel + 1, u :: q, level =>
    let p := (listAt g u).foldl (bfsStep u) (level, q)
    bfsLoop g fuel p.2 p.1

/-- `Dinic.bfs`: reset all levels to `-1`, set `level[s] = 0`, and
breadth-first search from `s` over arcs with residual capacity above
`EPS`; returns the level array (the source tests `level[t] >= 0`). -/
def bfs (g : Graph) (n s : Nat) : List Int :=
  bfsLoop g (n + 2) [s] ((List.replicate n (-1)).set s 0)

/-- The `for i in range(it[u], len(self.g[u]))` loop of `Dinic.dfs`,
with the body of the recursive call to `dfs` inlined (its `u == t`
test appears as the `e.to_ = t` branch).  Fuel decreases on every
recursive step. -/
def dfsGo (g : Graph) (t : Nat) (fval : ℚ) (level : List Int) (it : List Nat)
    (u : Nat) (i : Nat) : Nat → ℚ × Graph × List Nat
  | 0 => (0, g, it)
  | fuel + 1 =>
    if i < (listAt g u).length then
      let it1 := it.set u i
      let e := getArc g u i
      if EPS < e.cap ∧ levAt level e.to_ = levAt level u + 1 then
        let r :=
          if e.to_ = t then (min fval e.cap, g, it1)
          else dfsGo g t (min fval e.cap) level it1 e.to_ (itAt it1 e.to_) fuel
        if EPS < r.1 then
          let g1 := modCap r.2.1 u i (fun c => c - r.1)
          let g2 := modCap g1 e.to_ e.rev (fun c => c + r.1)
          (r.1, g2, r.2.2)
        else dfsGo r.2.1 t fval level r.2.2 u (i + 1) fuel
      else dfsGo g t fval level it1 u (i + 1) fuel
    else (0, g, it)

/-- `Dinic.dfs`. -/
def dfs (fuel : Nat) (g : Graph) (u t : Nat) (fval : ℚ) (level : List Int)
    (it : List Nat) : ℚ × Graph × List Nat :=
  if u = t then (fval, g, it)
  else dfsGo g t fval level it u (itAt it u) fuel

/-- Fuel that dominates the number of steps of one `dfs` call. -/
def dfsFuel (g : Graph) : Nat := (g.length + 2) * (numArcs g + g.length + 2)

/-- The inner `while True` loop of `Dinic.max_flow`: repeat blocking
searches in the current level graph until a search pushes `≤ EPS`. -/
def mfInner (s t : Nat) (level : List Int) :
    Graph → List Nat → ℚ → Nat → ℚ × Graph
  | g, _, acc, 0 => (acc, g)
  | g, it, acc, fuel + 1 =>
    let r := dfs (dfsFuel g) g s t 1000000000000000000 level it
    if EPS < r.1 then mfInner s t level r.2.1 r.2.2 (acc + r.1) fuel
    else (acc, r.2.1)

/-- The outer `while self.bfs(s, t, level)` loop of `Dinic.max_flow`. -/
def mfOuter (n s t : Nat) : Graph → ℚ → Nat → ℚ × Graph
  | g, acc, 0 => (acc, g)
  | g, acc, fuel + 1 =>
    let level := bfs g n s
    if 0 ≤ levAt level t then
      let r := mfInner s t level g (List.replicate n 0) acc (numArcs g + 2)
      mfOuter n s t r.2 r.1 fuel
    else (acc, g)

/-- `Dinic.max_flow`: returns the total flow pushed together with the
mutated residual graph. -/
def max_flow (g : Graph) (n s t : Nat) : ℚ × Graph :=
  mfOuter n s t g 0 (n + 2)

/-! ## Input and output documents -/

/-- A declared edge `{"from": ..., "to": ..., "lo": ..., "hi": ...}`
(with the source's defaults `lo = 0`, `hi = 0` already applied). -/
structure EdgeIn where
  from_ : String
  to_ : String
  lo : ℚ
  hi : ℚ
deriving DecidableEq

/-- The input document.  The JSON objects `sources` and `node_caps`
are carried as key/value lists in document order. -/
structure Input where
  edges : List EdgeIn
  sources : List (String × ℚ)
  sink : Option String
  node_caps : List (String × ℚ)
deriving DecidableEq

/-- An entry of `deficit.tight_edges`. -/
structure TightEdge where
  from_ : String
  to_ : String
  flow_needed : ℚ
deriving DecidableEq

/-- The `deficit` object of an infeasible answer. -/
structure Deficit where
  demand_balance : ℚ
  tight_nodes : List String
  tight_edges : List TightEdge
deriving DecidableEq

/-- An entry of the success `flows` array. -/
structure FlowOut where
  from_ : String
  to_ : String
  flow : ℚ
deriving DecidableEq

/-- The output document of `solve_belts`. -/
inductive Result where
  | ok (max_flow_per_min : ℚ) (flows : List FlowOut)
  | infeasible (cut_reachable : List String) (deficit : Deficit)
deriving DecidableEq

/-- Keys of a JSON object in document order (Python dict keys:
duplicates keep their first position). -/
def dkeys (l : List (String × ℚ)) : List String := (l.map Prod.fst).dedup

/-- Python dict lookup: the last value bound to the key, if any. -/
def dget (l : List (String × ℚ)) (k : String) : Option ℚ :=
  ((l.filter (fun p => p.1 == k)).getLast?).map Prod.snd

/-- Python dict key membership. -/
def containsKey (l : List (String × ℚ)) (k : String) : Bool :=
  (l.map Prod.fst).contains k

/-- Python `sorted` on a list of names. -/
def sortNames (l : List String) : List String := List.insertionSort (· ≤ ·) l

/-- The `(from, to)` lexicographic order used by
`sorted(edges_in, key=lambda x: (x['from'], x['to']))`. -/
def edgeLE (a b : EdgeIn) : Prop :=
  a.from_ < b.from_ ∨ (a.from_ = b.from_ ∧ a.to_ ≤ b.to_)

instance : DecidableRel edgeLE := fun a b => by
  unfold edgeLE; infer_instance

instance : IsTotal EdgeIn edgeLE := by
  constructor
  intro a b
  unfold edgeLE
  rcases lt_trichotomy a.from_ b.from_ with h | h | h
  · exact Or.inl (Or.inl h)
  · rcases le_total a.to_ b.to_ with h2 | h2
    · exact Or.inl (Or.inr ⟨h, h2⟩)
    · exact Or.inr (Or.inr ⟨h.symm, h2⟩)
  · exact Or.inr (Or.inl h)

instance : IsTrans EdgeIn edgeLE := by
  constructor
  intro a b c hab hbc
  unfold edgeLE at *
  rcases hab with h1 | ⟨h1, h1t⟩
  · rcases hbc with h2 | ⟨h2, _⟩
    · exact Or.inl (h1.trans h2)
    · exact Or.inl (h2 ▸ h1)
  · rcases hbc with h2 | ⟨h2, h2t⟩
    · exact Or.inl (h1 ▸ h2)
    · exact Or.inr ⟨h1.trans h2, h1t.trans h2t⟩

/-! ## Graph construction (`solve_belts`, lines 124-202) -/

/-- All node names mentioned by the input: edge endpoints, source
names, the sink, and capacitated names (the Python `nodes` set, before
dedup and sorting). -/
def allNames (inp : Input) : List String :=
  inp.edges.foldr (fun e acc => e.from_ :: e.to_ :: acc) [] ++
    inp.sources.map Prod.fst ++
    (match inp.sink with
     | some s => [s]
     | none => []) ++
    inp.node_caps.map Prod.fst

/-- `sorted_nodes = sorted(list(nodes))`. -/
def sorted_nodes (inp : Input) : List String := sortNames (allNames inp).dedup

/-- `name in node_caps and name != sink and name not in sources`:
whether the node is split into an `in`/`out` pair. -/
def isSplit (inp : Input) (name : String) : Bool :=
  containsKey inp.node_caps name && (inp.sink != some name) &&
    !containsKey inp.sources name

/-- The index-assignment loop: walk the sorted names, giving a split
node two consecutive indices (`in`, then `out`) and an unsplit node a
single shared index; returns the assignment and the next free index. -/
def assignIds (split : String → Bool) : List String → Nat → List (String × Nat × Nat) × Nat
  | [], idx => ([], idx)
  | name :: rest, idx =>
    if split name then
      let r := assignIds split rest (idx + 2)
      ((name, idx, idx + 1) :: r.1, r.2)
    else
      let r := assignIds split rest (idx + 1)
      ((name, idx, idx) :: r.1, r.2)

/-- Look a name up in the id assignment (never misses on names of
`sorted_nodes`). -/
def idLookup (l : List (String × Nat × Nat)) (name : String) : Nat × Nat :=
  ((l.filter (fun p => p.1 == name)).headD (name, 0, 0)).2

/-- The bookkeeping record for one declared edge:
`(u_name, v_name, lo, hi, (u_idx, pos))`. -/
structure EdgeRec where
  u_name : String
  v_name : String
  lo : ℚ
  hi : ℚ
  u_idx : Nat
  pos : Nat
deriving DecidableEq

/-- Step 1: add the `in → out` capacity arc of every split node and
record its handle (`node_split_edge_ref`). -/
def addSplitArcs (node_caps : List (String × ℚ)) (inId outId : String → Nat) :
    List String → Graph → List (String × Nat × Nat) → Graph × List (String × Nat × Nat)
  | [], g, ref => (g, ref)
  | name :: rest, g, ref =>
    if inId name ≠ outId name then
      let cap := (dget node_caps name).getD 0
      let r := add_edge g (inId name) (outId name) cap
      addSplitArcs node_caps inId outId rest r.1 (ref ++ [(name, r.2.1, r.2.2)])
    else addSplitArcs node_caps inId outId rest g ref

/-- Step 2: walk the `(from, to)`-sorted declared edges; an edge with
`hi + EPS < lo` aborts the whole solve with a bare infeasibility
answer; otherwise add the reduced arc `out(u) → in(v)` of capacity
`max 0 (hi - lo)`, record its handle, and account the lower bound into
the demand array. -/
def processEdges (inId outId : String → Nat) :
    List EdgeIn → Graph → List EdgeRec → List ℚ →
      Except Result (Graph × List EdgeRec × List ℚ)
  | [], g, recs, dem => .ok (g, recs, dem)
  | e :: rest, g, recs, dem =>
    if e.hi + EPS < e.lo then
      .error (.infeasible [] ⟨e.lo - e.hi, [], []⟩)
    else
      let cap := max 0 (e.hi - e.lo)
      let u_idx := outId e.from_
      let v_idx := inId e.to_
      let r := add_edge g u_idx v_idx cap
      processEdges inId outId rest r.1
        (recs ++ [⟨e.from_, e.to_, e.lo, e.hi, u_idx, r.2.2⟩])
        (updAt (updAt dem v_idx (fun d => d + e.lo)) u_idx (fun d => d - e.lo))

/-- Step 3: wire every node with demand beyond `EPS` to the
lower-bound super-nodes, accumulating `total_pos_demand`. -/
def addDemandArcs (S_star T_star : Nat) (dem : List ℚ) :
    List Nat → Graph → ℚ → Graph × ℚ
  | [], g, tpd => (g, tpd)
  | i :: rest, g, tpd =>
    let d := dem.getD i 0
    if |d| ≤ EPS then addDemandArcs S_star T_star dem rest g tpd
    else if 0 < d then
      addDemandArcs S_star T_star dem rest (add_edge g S_star i d).1 (tpd + d)
    else addDemandArcs S_star T_star dem rest (add_edge g i T_star (-d)).1 tpd

/-- The state of `solve_belts` once the demand arcs are wired. -/
structure Ctx where
  nodes : List String
  ids : List (String × Nat × Nat)
  S_star : Nat
  T_star : Nat
  S_main : Nat
  T_main : Nat
  N : Nat
  g : Graph
  edge_records : List EdgeRec
  node_split_edge_ref : List (String × Nat × Nat)
  total_pos_demand : ℚ
deriving DecidableEq

/-- `in_id[name]`. -/
def Ctx.in_id (c : Ctx) (name : String) : Nat := (idLookup c.ids name).1

/-- `out_id[name]`. -/
def Ctx.out_id (c : Ctx) (name : String) : Nat := (idLookup c.ids name).2

/-- `ids`: the index assignment over the sorted node names. -/
def bIds (inp : Input) : List (String × Nat × Nat) × Nat :=
  assignIds (isSplit inp) (sorted_nodes inp) 0

/-- `in_id[name]` during construction. -/
def bInId (inp : Input) (name : String) : Nat := (idLookup (bIds inp).1 name).1

/-- `out_id[name]` during construction. -/
def bOutId (inp : Input) (name : String) : Nat := (idLookup (bIds inp).1 name).2

/-- The total number of internal indices `N = idx + 4`. -/
def bN (inp : Input) : Nat := (bIds inp).2 + 4

/-- Step 1 applied to the empty graph of `N` nodes. -/
def bSplitArcs (inp : Input) : Graph × List (String × Nat × Nat) :=
  addSplitArcs inp.node_caps (bInId inp) (bOutId inp) (sorted_nodes inp)
    (List.replicate (bN inp) []) []

/-- Lines 124-202 of `solve_belts`: id assignment and the three graph
construction steps, aborting on malformed bounds.  The super-node
indices are `S* = idx`, `T* = idx + 1`, `S_main = idx + 2`,
`T_main = idx + 3`. -/
def build (inp : Input) : Except Result Ctx :=
  match processEdges (bInId inp) (bOutId inp) (List.insertionSort edgeLE inp.edges)
      (bSplitArcs inp).1 [] (List.replicate (bN inp) 0) with
  | .error res => .error res
  | .ok (g2, recs, dem) =>
    let r3 := addDemandArcs (bIds inp).2 ((bIds inp).2 + 1) dem
      (List.range (bN inp)) g2 0
    .ok ⟨sorted_nodes inp, (bIds inp).1, (bIds inp).2, (bIds inp).2 + 1,
      (bIds inp).2 + 2, (bIds inp).2 + 3, bN inp, r3.1, recs, (bSplitArcs inp).2, r3.2⟩

/-! ## Certificates, the two phases, and flow reconstruction -/

/-- Python `round(x, 9)`: scale by `10^9` and round half to even. -/
def pyRound9 (q : ℚ) : ℚ :=
  let x := q * 1000000000
  let f := ⌊x⌋
  let r := if x - f < 1 / 2 then f
    else if 1 / 2 < x - f then f + 1
    else if f % 2 = 0 then f else f + 1
  (r : ℚ) / 1000000000

/-- One arc relaxation of the residual-reachability scan (same shape
as `bfsStep`, but recording a visited flag instead of a level). -/
def reachStep (acc : List Bool × List Nat) (e : Edge) : List Bool × List Nat :=
  if EPS < e.cap ∧ !(acc.1.getD e.to_ false) then
    (acc.1.set e.to_ true, acc.2 ++ [e.to_])
  else acc

/-- The queue loop of the residual-reachability scan. -/
def reachLoop (g : Graph) : Nat → List Nat → List Bool → List Bool
  | 0, _, vis => vis
  | _ + 1, [], vis => vis
  | fuel + 1, u :: q, vis =>
    let p := (listAt g u).foldl reachStep (vis, q)
    reachLoop g fuel p.2 p.1

/-- BFS over arcs with residual capacity above `EPS` from `s`; the
visited array is the source side of the minimum cut. -/
def reach (g : Graph) (n s : Nat) : List Bool :=
  reachLoop g (n + 2) [s] ((List.replicate n false).set s true)

/-- Assemble an infeasibility certificate from a visited array:
`cut_reachable` is the sorted list of external names with a visited
`in`/`out` index, `tight_edges` the declared edges crossing the cut
with residual `≤ EPS` (reporting `lo +` original reduced capacity),
`tight_nodes` the sorted names of saturated split arcs, and
`demand_balance` the rounded shortfall. -/
def buildCert (nodes : List String) (inId outId : String → Nat)
    (recs : List EdgeRec) (ref : List (String × Nat × Nat)) (g : Graph)
    (vis : List Bool) (balance : ℚ) : Result :=
  let reachable := nodes.filter (fun name =>
    vis.getD (inId name) false || vis.getD (outId name) false)
  let tight_edges := (recs.filter (fun rec =>
      (vis.getD rec.u_idx false && !(vis.getD (getArc g rec.u_idx rec.pos).to_ false)) &&
        (getArc g rec.u_idx rec.pos).cap ≤ EPS)).map
    (fun rec => TightEdge.mk rec.u_name rec.v_name (rec.lo + (getArc g rec.u_idx rec.pos).orig))
  let tight_nodes := (ref.filter (fun p => (getArc g p.2.1 p.2.2).cap ≤ EPS)).map Prod.fst
  Result.infeasible (sortNames reachable)
    ⟨pyRound9 balance, sortNames tight_nodes, tight_edges⟩

/-- The phase-1 certificate (lines 207-243): reachability from `S*` in
the residual graph left by the circulation max-flow. -/
def lowerCert (c : Ctx) (flowed : ℚ) (g1 : Graph) : Result :=
  buildCert c.nodes c.in_id c.out_id c.edge_records c.node_split_edge_ref g1
    (reach g1 c.N c.S_star) (c.total_pos_demand - flowed)

/-- Lines 250-259: walk the sorted source names; clamp a supply below
`-EPS` to zero; a source name absent from the id map aborts with a
bare infeasibility answer; a positive supply adds `S_main → out(source)`
and accumulates `total_supply`. -/
def processSources (sources : List (String × ℚ)) (outId : String → Nat)
    (hasOut : String → Bool) (S_main : Nat) :
    List String → Graph → ℚ → Except Result (Graph × ℚ)
  | [], g, total => .ok (g, total)
  | sname :: rest, g, total =>
    let supply0 := (dget sources sname).getD 0
    let supply := if supply0 < -EPS then 0 else supply0
    if !hasOut sname then
      .error (.infeasible [] ⟨supply, [], []⟩)
    else if 0 < supply then
      processSources sources outId hasOut S_main rest
        (add_edge g S_main (outId sname) supply).1 (total + supply)
    else processSources sources outId hasOut S_main rest g total

/-- Apply the flow-reconstruction formula to one declared edge:
`flow = (orig - cap) + lo`, clamp magnitudes below `1e-12` to zero,
then round to 9 decimal places. -/
def reconOne (g : Graph) (r : EdgeRec) : FlowOut :=
  let e := getArc g r.u_idx r.pos
  let used := e.orig - e.cap
  let final_flow := used + r.lo
  let final_flow := if |final_flow| < 1 / 1000000000000 then 0 else final_flow
  ⟨r.u_name, r.v_name, pyRound9 final_flow⟩

/-- Lines 301-317: build the `flows` array from the edge records and
report the total delivered into the sink. -/
def reconstruct (sinkName : String) (recs : List EdgeRec) (g : Graph) : Result :=
  let flows := recs.map (reconOne g)
  let total_delivered := (flows.filter (fun f => f.to_ == sinkName)).foldl
    (fun a f => a + f.flow) 0
  Result.ok (pyRound9 total_delivered) flows

/-- Lines 245-317: everything after a successful lower-bound phase:
wire the supplies and the sink, run the delivery max-flow, and either
emit the phase-2 certificate or reconstruct the flows. -/
def afterLB (inp : Input) (c : Ctx) (g1 : Graph) : Result :=
  match processSources inp.sources c.out_id (fun n => c.nodes.contains n) c.S_main
      (sortNames (dkeys inp.sources)) g1 0 with
  | .error r => r
  | .ok (g2, total_supply) =>
    match inp.sink with
    | none => .infeasible [] ⟨total_supply, [], []⟩
    | some sname =>
      if !(c.nodes.contains sname) then .infeasible [] ⟨total_supply, [], []⟩
      else
        let g3 := (add_edge g2 (c.in_id sname) c.T_main total_supply).1
        let r := max_flow g3 c.N c.S_main c.T_main
        if 1 / 1000000 < |r.1 - total_supply| then
          buildCert c.nodes c.in_id c.out_id c.edge_records c.node_split_edge_ref r.2
            (reach r.2 c.N c.S_main) (total_supply - r.1)
        else reconstruct sname c.edge_records r.2

/-- `solve_belts` (lines 118-317). -/
def solve_belts (inp : Input) : Result :=
  match build inp with
  | .error r => r
  | .ok c =>
    let p := max_flow c.g c.N c.S_star c.T_star
    if 1 / 1000000 < |p.1 - c.total_pos_demand| then lowerCert c p.1 p.2
    else afterLB inp c p.2

/-! ## Basic lemmas about the graph representation -/

/-- `self.g[u][i]` denotes a stored arc. -/
def hasArc (g : Graph) (u i : Nat) : Prop := i < (listAt g u).length

theorem length_updAt {α : Type} (l : List α) (n : Nat) (f : α → α) :
    (updAt l n f).length = l.length := by
  induction l generalizing n with
  | nil => rfl
  | cons a l ih =>
    cases n with
    | zero => rfl
    | succ n => simpa [updAt] using ih n

theorem getD_updAt {α : Type} (l : List α) (n : Nat) (f : α → α) (m : Nat) (d : α) :
    (updAt l n f).getD m d =
      if m = n ∧ n < l.length then f (l.getD n d) else l.getD m d := by
  induction l generalizing n m with
  | nil => simp [updAt]
  | cons a l ih =>
    cases n with
    | zero =>
      cases m with
      | zero => simp [updAt]
      | succ m => simp [updAt]
    | succ n =>
      cases m with
      | zero => simp [updAt]
      | succ m =>
        simp only [updAt, List.getD_cons_succ, ih n m, List.length_cons,
          Nat.add_right_cancel_iff, Nat.add_lt_add_iff_right]

theorem getD_append_one {α : Type} (l : List α) (x : α) (k : Nat) (d : α) :
    (l ++ [x]).getD k d =
      if k < l.length then l.getD k d else if k = l.length then x else d := by
  induction l generalizing k with
  | nil =>
    cases k with
    | zero => simp
    | succ k => simp
  | cons a l ih =>
    cases k with
    | zero => simp
    | succ k =>
      simp only [List.cons_append, List.getD_cons_succ, ih k, List.length_cons,
        Nat.add_lt_add_iff_right, Nat.add_right_cancel_iff]

theorem lt_length_of_hasArc {g : Graph} {u i : Nat} (h : i < (listAt g u).length) :
    u < g.length := by
  by_contra hu
  have hnil : listAt g u = [] := List.getD_eq_default _ _ (Nat.le_of_not_lt hu)
  rw [hnil] at h
  exact Nat.not_lt_zero i h

theorem listAt_updAt (g : Graph) (u : Nat) (F : List Edge → List Edge) (w : Nat) :
    listAt (updAt g u F) w =
      if w = u ∧ u < g.length then F (listAt g u) else listAt g w :=
  getD_updAt g u F w []

theorem length_listAt_modCap (g : Graph) (u i : Nat) (f : ℚ → ℚ) (w : Nat) :
    (listAt (modCap g u i f) w).length = (listAt g w).length := by
  unfold modCap
  rw [listAt_updAt]
  split
  · next h => rw [h.1, length_updAt]
  · rfl

theorem length_modCap (g : Graph) (u i : Nat) (f : ℚ → ℚ) :
    (modCap g u i f).length = g.length := length_updAt g u _

theorem getArc_modCap (g : Graph) (u i : Nat) (f : ℚ → ℚ) (a b : Nat) :
    getArc (modCap g u i f) a b =
      if a = u ∧ b = i ∧ i < (listAt g u).length then
        { getArc g u i with cap := f (getArc g u i).cap }
      else getArc g a b := by
  unfold modCap getArc
  rw [listAt_updAt]
  by_cases h1 : a = u ∧ u < g.length
  · rw [if_pos h1, getD_updAt]
    obtain ⟨rfl, hu⟩ := h1
    by_cases h2 : b = i ∧ i < (listAt g a).length
    · rw [if_pos h2, if_pos ⟨rfl, h2.1, h2.2⟩]
    · rw [if_neg h2, if_neg]
      intro hc
      exact h2 ⟨hc.2.1, hc.2.2⟩
  · rw [if_neg h1, if_neg]
    intro hc
    exact h1 ⟨hc.1, lt_length_of_hasArc hc.2.2⟩

theorem to_getArc_modCap (g : Graph) (u i : Nat) (f : ℚ → ℚ) (a b : Nat) :
    (getArc (modCap g u i f) a b).to_ = (getArc g a b).to_ := by
  rw [getArc_modCap]
  split
  · next h => obtain ⟨rfl, rfl, h⟩ := h; rfl
  · rfl

theorem rev_getArc_modCap (g : Graph) (u i : Nat) (f : ℚ → ℚ) (a b : Nat) :
    (getArc (modCap g u i f) a b).rev = (getArc g a b).rev := by
  rw [getArc_modCap]
  split
  · next h => obtain ⟨rfl, rfl, h⟩ := h; rfl
  · rfl

theorem orig_getArc_modCap (g : Graph) (u i : Nat) (f : ℚ → ℚ) (a b : Nat) :
    (getArc (modCap g u i f) a b).orig = (getArc g a b).orig := by
  rw [getArc_modCap]
  split
  · next h => obtain ⟨rfl, rfl, h⟩ := h; rfl
  · rfl

theorem cap_getArc_modCap (g : Graph) (u i : Nat) (f : ℚ → ℚ) (a b : Nat) :
    (getArc (modCap g u i f) a b).cap =
      if a = u ∧ b = i ∧ i < (listAt g u).length then f (getArc g u i).cap
      else (getArc g a b).cap := by
  rw [getArc_modCap]
  split
  · next h => obtain ⟨rfl, rfl, h⟩ := h; rfl
  · rfl

/-! ## The residual pairing invariant (claim C6) -/

/-- Every stored arc's `(to_, rev)` fields name a stored arc pointing
back at it, and the remaining capacities of the two arcs of a pair sum
to their original capacities.  `add_edge` with distinct endpoints
establishes this and every capacity update of the engine preserves
it. -/
def Inv (g : Graph) : Prop :=
  ∀ u i, hasArc g u i →
    hasArc g (getArc g u i).to_ (getArc g u i).rev ∧
    (getArc g (getArc g u i).to_ (getArc g u i).rev).to_ = u ∧
    (getArc g (getArc g u i).to_ (getArc g u i).rev).rev = i ∧
    (getArc g u i).cap + (getArc g (getArc g u i).to_ (getArc g u i).rev).cap =
      (getArc g u i).orig + (getArc g (getArc g u i).to_ (getArc g u i).rev).orig

/-- The capacity transfer `e.cap -= p; g[e.to][e.rev].cap += p`
performed when `dfs` augments through the arc `g[u][i]`. -/
def pushAt (g : Graph) (u i : Nat) (p : ℚ) : Graph :=
  modCap (modCap g u i (fun c => c - p)) (getArc g u i).to_ (getArc g u i).rev
    (fun c => c + p)

/-- Graphs that agree on everything but arc capacities. -/
def capOnly (g g' : Graph) : Prop :=
  g'.length = g.length ∧
  (∀ w, (listAt g' w).length = (listAt g w).length) ∧
  (∀ w k, (getArc g' w k).to_ = (getArc g w k).to_ ∧
    (getArc g' w k).rev = (getArc g w k).rev ∧
    (getArc g' w k).orig = (getArc g w k).orig)

theorem capOnly_refl (g : Graph) : capOnly g g :=
  ⟨rfl, fun _ => rfl, fun _ _ => ⟨rfl, rfl, rfl⟩⟩

theorem capOnly_trans {g1 g2 g3 : Graph} (h12 : capOnly g1 g2) (h23 : capOnly g2 g3) :
    capOnly g1 g3 := by
  refine ⟨h23.1.trans h12.1, fun w => (h23.2.1 w).trans (h12.2.1 w), fun w k => ?_⟩
  obtain ⟨a1, a2, a3⟩ := h12.2.2 w k
  obtain ⟨b1, b2, b3⟩ := h23.2.2 w k
  exact ⟨b1.trans a1, b2.trans a2, b3.trans a3⟩

theorem capOnly_modCap (g : Graph) (u i : Nat) (f : ℚ → ℚ) :
    capOnly g (modCap g u i f) :=
  ⟨length_modCap g u i f, length_listAt_modCap g u i f, fun w k =>
    ⟨to_getArc_modCap g u i f w k, rev_getArc_modCap g u i f w k,
      orig_getArc_modCap g u i f w k⟩⟩

theorem capOnly_pushAt (g : Graph) (u i : Nat) (p : ℚ) :
    capOnly g (pushAt g u i p) :=
  capOnly_trans (capOnly_modCap g u i _) (capOnly_modCap _ _ _ _)

theorem cap_getArc_pushAt {g : Graph} {u i : Nat} (hui : hasArc g u i)
    (hvj : hasArc g (getArc g u i).to_ (getArc g u i).rev) (p : ℚ) (w k : Nat) :
    (getArc (pushAt g u i p) w k).cap =
      (getArc g w k).cap + (if w = u ∧ k = i then -p else 0) +
        (if w = (getArc g u i).to_ ∧ k = (getArc g u i).rev then p else 0) := by
  unfold hasArc at hui hvj
  unfold pushAt
  simp only [cap_getArc_modCap, length_listAt_modCap]
  by_cases h2 : w = (getArc g u i).to_ ∧ k = (getArc g u i).rev
  · rw [if_pos ⟨h2.1, h2.2, hvj⟩, if_pos h2]
    by_cases h1 : (getArc g u i).to_ = u ∧ (getArc g u i).rev = i
    · have hw : w = u ∧ k = i := ⟨h2.1.trans h1.1, h2.2.trans h1.2⟩
      rw [if_pos ⟨h1.1, h1.2, hui⟩, if_pos hw]
      rw [h2.1, h2.2, h1.1, h1.2]
      ring
    · have hw : ¬(w = u ∧ k = i) := by
        intro hc
        exact h1 ⟨h2.1.symm.trans hc.1, h2.2.symm.trans hc.2⟩
      rw [if_neg, if_neg hw]
      · rw [h2.1, h2.2]
        ring
      · intro hc
        exact h1 ⟨hc.1, hc.2.1⟩
  · rw [if_neg, if_neg h2]
    · by_cases h1 : w = u ∧ k = i
      · rw [if_pos ⟨h1.1, h1.2, hui⟩, if_pos h1]
        rw [h1.1, h1.2]
        ring
      · rw [if_neg, if_neg h1]
        · ring
        · intro hc
          exact h1 ⟨hc.1, hc.2.1⟩
    · intro hc
      exact h2 ⟨hc.1, hc.2.1⟩

theorem Inv_pushAt {g : Graph} (hg : Inv g) {u i : Nat} (hui : hasArc g u i) (p : ℚ) :
    Inv (pushAt g u i p) := by
  have hco := capOnly_pushAt g u i p
  obtain ⟨hvj, hb1, hb2, hsum⟩ := hg u i hui
  intro a b hab
  have hab' : hasArc g a b := by
    unfold hasArc at hab ⊢
    rw [hco.2.1] at hab
    exact hab
  obtain ⟨hcd, hc1, hc2, hcsum⟩ := hg a b hab'
  have hto : ∀ w k, (getArc (pushAt g u i p) w k).to_ = (getArc g w k).to_ :=
    fun w k => (hco.2.2 w k).1
  have hrev : ∀ w k, (getArc (pushAt g u i p) w k).rev = (getArc g w k).rev :=
    fun w k => (hco.2.2 w k).2.1
  have horig : ∀ w k, (getArc (pushAt g u i p) w k).orig = (getArc g w k).orig :=
    fun w k => (hco.2.2 w k).2.2
  have hcap := cap_getArc_pushAt hui hvj p
  refine ⟨?_, ?_, ?_, ?_⟩
  · unfold hasArc
    rw [hco.2.1, hto, hrev]
    exact hcd
  · rw [hto, hrev, hto]
    exact hc1
  · rw [hto, hrev, hrev]
    exact hc2
  · rw [hto, hrev, horig, horig, hcap, hcap]
    by_cases hA : a = u ∧ b = i
    · have heq : getArc g a b = getArc g u i := by rw [hA.1, hA.2]
      rw [heq] at hcsum ⊢
      by_cases hB : a = (getArc g u i).to_ ∧ b = (getArc g u i).rev
      · have hvu : (getArc g u i).to_ = u := hB.1.symm.trans hA.1
        have hji : (getArc g u i).rev = i := hB.2.symm.trans hA.2
        have h4 : (getArc g u i).to_ = (getArc g u i).to_ ∧
            (getArc g u i).rev = (getArc g u i).rev := ⟨rfl, rfl⟩
        rw [if_pos hA, if_pos hB, if_pos ⟨hvu, hji⟩, if_pos h4]
        linarith [hcsum]
      · have h3 : ¬((getArc g u i).to_ = u ∧ (getArc g u i).rev = i) := by
          intro h
          exact hB ⟨hA.1.trans h.1.symm, hA.2.trans h.2.symm⟩
        have h4 : (getArc g u i).to_ = (getArc g u i).to_ ∧
            (getArc g u i).rev = (getArc g u i).rev := ⟨rfl, rfl⟩
        rw [if_pos hA, if_neg hB, if_neg h3, if_pos h4]
        linarith [hcsum]
    · by_cases hB : a = (getArc g u i).to_ ∧ b = (getArc g u i).rev
      · have heq : getArc g a b = getArc g (getArc g u i).to_ (getArc g u i).rev := by
          rw [hB.1, hB.2]
        rw [heq, hb1, hb2] at hcsum ⊢
        have h3 : (u : Nat) = u ∧ (i : Nat) = i := ⟨rfl, rfl⟩
        have h4 : ¬(u = (getArc g u i).to_ ∧ i = (getArc g u i).rev) := by
          intro h
          exact hA ⟨hB.1.trans h.1.symm, hB.2.trans h.2.symm⟩
        rw [if_neg hA, if_pos hB, if_pos h3, if_neg h4]
        linarith [hcsum]
      · have hne1 : ¬((getArc g a b).to_ = u ∧ (getArc g a b).rev = i) := by
          intro h
          apply hB
          refine ⟨hc1.symm.trans ?_, hc2.symm.trans ?_⟩
          · rw [h.1, h.2]
          · rw [h.1, h.2]
        have hne2 : ¬((getArc g a b).to_ = (getArc g u i).to_ ∧
            (getArc g a b).rev = (getArc g u i).rev) := by
          intro h
          apply hA
          refine ⟨hc1.symm.trans ?_, hc2.symm.trans ?_⟩
          · rw [h.1, h.2]
            exact hb1
          · rw [h.1, h.2]
            exact hb2
        rw [if_neg hA, if_neg hB, if_neg hne1, if_neg hne2]
        linarith [hcsum]

theorem push_pair_inv {g g' : Graph} (hco : capOnly g g') (hg' : Inv g') {u i : Nat}
    (hlen : i < (listAt g u).length) (p : ℚ) :
    Inv (modCap (modCap g' u i (fun c => c - p)) (getArc g u i).to_
      (getArc g u i).rev (fun c => c + p)) ∧
    capOnly g (modCap (modCap g' u i (fun c => c - p)) (getArc g u i).to_
      (getArc g u i).rev (fun c => c + p)) := by
  have h1 : (getArc g u i).to_ = (getArc g' u i).to_ := ((hco.2.2 u i).1).symm
  have h2 : (getArc g u i).rev = (getArc g' u i).rev := ((hco.2.2 u i).2.1).symm
  rw [h1, h2]
  have hlen' : i < (listAt g' u).length := by
    rw [hco.2.1]
    exact hlen
  exact ⟨Inv_pushAt hg' hlen' p, capOnly_trans hco (capOnly_pushAt g' u i p)⟩

theorem dfsGo_inv : ∀ (fuel : Nat) (g : Graph) (t : Nat) (fval : ℚ) (level : List Int)
    (it : List Nat) (u i : Nat), Inv g →
    Inv (dfsGo g t fval level it u i fuel).2.1 ∧
      capOnly g (dfsGo g t fval level it u i fuel).2.1 := by
  intro fuel
  induction fuel with
  | zero =>
    intro g t fval level it u i hg
    exact ⟨hg, capOnly_refl g⟩
  | succ fuel ih =>
    intro g t fval level it u i hg
    simp only [dfsGo]
    by_cases hlen : i < (listAt g u).length
    · rw [if_pos hlen]
      by_cases hc : EPS < (getArc g u i).cap ∧
          levAt level (getArc g u i).to_ = levAt level u + 1
      · rw [if_pos hc]
        by_cases ht : (getArc g u i).to_ = t
        · rw [if_pos ht]
          by_cases hp : EPS < (min fval (getArc g u i).cap, g, it.set u i).1
          · rw [if_pos hp]
            refine ⟨Inv_pushAt hg hlen _, capOnly_pushAt g u i _⟩
          · rw [if_neg hp]
            exact ih g t fval level (it.set u i) u (i + 1) hg
        · rw [if_neg ht]
          obtain ⟨hInv, hco⟩ := ih g t (min fval (getArc g u i).cap) level (it.set u i)
            (getArc g u i).to_ (itAt (it.set u i) (getArc g u i).to_) hg
          by_cases hp : EPS <
              (dfsGo g t (min fval (getArc g u i).cap) level (it.set u i)
                (getArc g u i).to_ (itAt (it.set u i) (getArc g u i).to_) fuel).1
          · rw [if_pos hp]
            exact push_pair_inv hco hInv hlen _
          · rw [if_neg hp]
            obtain ⟨hInv2, hco2⟩ := ih _ t fval level
              (dfsGo g t (min fval (getArc g u i).cap) level (it.set u i)
                (getArc g u i).to_ (itAt (it.set u i) (getArc g u i).to_) fuel).2.2
              u (i + 1) hInv
            exact ⟨hInv2, capOnly_trans hco hco2⟩
      · rw [if_neg hc]
        exact ih g t fval level (it.set u i) u (i + 1) hg
    · rw [if_neg hlen]
      exact ⟨hg, capOnly_refl g⟩

theorem dfs_inv (fuel : Nat) (g : Graph) (u t : Nat) (fval : ℚ) (level : List Int)
    (it : List Nat) (hg : Inv g) :
    Inv (dfs fuel g u t fval level it).2.1 ∧
      capOnly g (dfs fuel g u t fval level it).2.1 := by
  unfold dfs
  split
  · exact ⟨hg, capOnly_refl g⟩
  · exact dfsGo_inv fuel g t fval level it u (itAt it u) hg

theorem mfInner_inv : ∀ (fuel : Nat) (s t : Nat) (level : List Int) (g : Graph)
    (it : List Nat) (acc : ℚ), Inv g →
    Inv (mfInner s t level g it acc fuel).2 ∧ capOnly g (mfInner s t level g it acc fuel).2 := by
  intro fuel
  induction fuel with
  | zero =>
    intro s t level g it acc hg
    exact ⟨hg, capOnly_refl g⟩
  | succ fuel ih =>
    intro s t level g it acc hg
    simp only [mfInner]
    obtain ⟨hInv, hco⟩ := dfs_inv (dfsFuel g) g s t 1000000000000000000 level it hg
    split
    · obtain ⟨hInv2, hco2⟩ := ih s t level _
        (dfs (dfsFuel g) g s t 1000000000000000000 level it).2.2 _ hInv
      exact ⟨hInv2, capOnly_trans hco hco2⟩
    · exact ⟨hInv, hco⟩

theorem mfOuter_inv : ∀ (fuel : Nat) (n s t : Nat) (g : Graph) (acc : ℚ), Inv g →
    Inv (mfOuter n s t g acc fuel).2 ∧ capOnly g (mfOuter n s t g acc fuel).2 := by
  intro fuel
  induction fuel with
  | zero =>
    intro n s t g acc hg
    exact ⟨hg, capOnly_refl g⟩
  | succ fuel ih =>
    intro n s t g acc hg
    simp only [mfOuter]
    split
    · obtain ⟨hInv, hco⟩ := mfInner_inv (numArcs g + 2) s t (bfs g n s) g
        (List.replicate n 0) acc hg
      obtain ⟨hInv2, hco2⟩ := ih n s t _ _ hInv
      exact ⟨hInv2, capOnly_trans hco hco2⟩
    · exact ⟨hg, capOnly_refl g⟩

/-- The max-flow engine only transfers capacity inside residual pairs:
it preserves the pairing invariant (and never touches `to`/`rev`/`orig`
fields). -/
theorem max_flow_inv (g : Graph) (n s t : Nat) (hg : Inv g) :
    Inv (max_flow g n s t).2 ∧ capOnly g (max_flow g n s t).2 :=
  mfOuter_inv (n + 2) n s t g 0 hg

theorem add_edge_spec (g : Graph) (u v : Nat) (c : ℚ) (hu : u < g.length)
    (hv : v < g.length) (huv : u ≠ v) :
    (add_edge g u v c).2.1 = u ∧
    (add_edge g u v c).2.2 = (listAt g u).length ∧
    listAt (add_edge g u v c).1 u =
      listAt g u ++ [⟨v, (listAt g v).length, c, c⟩] ∧
    listAt (add_edge g u v c).1 v =
      listAt g v ++ [⟨u, (listAt g u).length, 0, 0⟩] ∧
    (∀ w, w ≠ u → w ≠ v → listAt (add_edge g u v c).1 w = listAt g w) ∧
    (add_edge g u v c).1.length = g.length := by
  have h1u : listAt (updAt g u fun l => l ++ [⟨v, (listAt g v).length, c, c⟩]) u =
      listAt g u ++ [⟨v, (listAt g v).length, c, c⟩] := by
    rw [listAt_updAt, if_pos ⟨rfl, hu⟩]
  have h1len : (updAt g u fun l => l ++ [⟨v, (listAt g v).length, c, c⟩]).length =
      g.length := length_updAt g u _
  have h1w : ∀ w, w ≠ u →
      listAt (updAt g u fun l => l ++ [⟨v, (listAt g v).length, c, c⟩]) w = listAt g w := by
    intro w hw
    rw [listAt_updAt, if_neg]
    intro hc
    exact hw hc.1
  refine ⟨rfl, ?_, ?_, ?_, ?_, ?_⟩
  · simp only [add_edge]
    rw [h1u, List.length_append, List.length_singleton]
    exact Nat.add_sub_cancel _ _
  · simp only [add_edge]
    rw [listAt_updAt, if_neg]
    · exact h1u
    · intro hc
      exact huv hc.1
  · simp only [add_edge]
    rw [h1u, List.length_append, List.length_singleton, Nat.add_sub_cancel,
      listAt_updAt, if_pos ⟨rfl, by rw [h1len]; exact hv⟩, h1w v (Ne.symm huv)]
  · intro w hwu hwv
    simp only [add_edge]
    rw [listAt_updAt, if_neg, h1w w hwu]
    intro hc
    exact hwv hc.1
  · simp only [add_edge]
    rw [length_updAt, h1len]

theorem add_edge_inv (g : Graph) (u v : Nat) (c : ℚ) (hg : Inv g) (hu : u < g.length)
    (hv : v < g.length) (huv : u ≠ v) :
    Inv (add_edge g u v c).1 := by
  obtain ⟨-, hpos, hLu, hLv, hW, hglen⟩ := add_edge_spec g u v c hu hv huv
  have hold : ∀ w k, k < (listAt g w).length →
      getArc (add_edge g u v c).1 w k = getArc g w k := by
    intro w k hk
    by_cases hwu : w = u
    · subst hwu
      unfold getArc
      rw [hLu, getD_append_one, if_pos hk]
    · by_cases hwv : w = v
      · subst hwv
        unfold getArc
        rw [hLv, getD_append_one, if_pos hk]
      · unfold getArc
        rw [hW w hwu hwv]
  have hfwd : getArc (add_edge g u v c).1 u (listAt g u).length =
      ⟨v, (listAt g v).length, c, c⟩ := by
    unfold getArc
    rw [hLu, getD_append_one, if_neg (lt_irrefl _), if_pos rfl]
  have hbwd : getArc (add_edge g u v c).1 v (listAt g v).length =
      ⟨u, (listAt g u).length, 0, 0⟩ := by
    unfold getArc
    rw [hLv, getD_append_one, if_neg (lt_irrefl _), if_pos rfl]
  have hlenu : (listAt (add_edge g u v c).1 u).length = (listAt g u).length + 1 := by
    rw [hLu, List.length_append, List.length_singleton]
  have hlenv : (listAt (add_edge g u v c).1 v).length = (listAt g v).length + 1 := by
    rw [hLv, List.length_append, List.length_singleton]
  have hge : ∀ w, (listAt g w).length ≤ (listAt (add_edge g u v c).1 w).length := by
    intro w
    by_cases hwu : w = u
    · subst hwu
      rw [hlenu]
      exact Nat.le_succ _
    · by_cases hwv : w = v
      · subst hwv
        rw [hlenv]
        exact Nat.le_succ _
      · rw [hW w hwu hwv]
  have htrans : ∀ w k, hasArc g w k → hasArc (add_edge g u v c).1 w k := by
    intro w k hk
    exact Nat.lt_of_lt_of_le hk (hge w)
  have hcase : ∀ a b, hasArc (add_edge g u v c).1 a b →
      (hasArc g a b ∨ (a = u ∧ b = (listAt g u).length) ∨
        (a = v ∧ b = (listAt g v).length)) := by
    intro a b hab
    by_cases hau : a = u
    · subst hau
      rw [hasArc, hlenu] at hab
      rcases Nat.lt_succ_iff_lt_or_eq.mp hab with h | h
      · exact Or.inl h
      · exact Or.inr (Or.inl ⟨rfl, h⟩)
    · by_cases hav : a = v
      · subst hav
        rw [hasArc, hlenv] at hab
        rcases Nat.lt_succ_iff_lt_or_eq.mp hab with h | h
        · exact Or.inl h
        · exact Or.inr (Or.inr ⟨rfl, h⟩)
      · rw [hasArc, hW a hau hav] at hab
        exact Or.inl hab
  intro a b hab
  rcases hcase a b hab with hO | ⟨rfl, rfl⟩ | ⟨rfl, rfl⟩
  · obtain ⟨hcd, hc1, hc2, hcsum⟩ := hg a b hO
    rw [hold a b hO, hold _ _ hcd]
    exact ⟨htrans _ _ hcd, hc1, hc2, hcsum⟩
  · rw [hfwd]
    refine ⟨?_, ?_⟩
    · rw [hasArc, hlenv]
      exact Nat.lt_succ_self _
    · rw [hbwd]
      exact ⟨rfl, rfl, by ring⟩
  · rw [hbwd]
    refine ⟨?_, ?_⟩
    · rw [hasArc, hlenu]
      exact Nat.lt_succ_self _
    · rw [hfwd]
      exact ⟨rfl, rfl, by ring⟩

theorem add_edge_fwd (g : Graph) (u v : Nat) (c : ℚ) (hu : u < g.length)
    (hv : v < g.length) (huv : u ≠ v) :
    getArc (add_edge g u v c).1 u (listAt g u).length =
      ⟨v, (listAt g v).length, c, c⟩ := by
  obtain ⟨-, -, hLu, -, -, -⟩ := add_edge_spec g u v c hu hv huv
  unfold getArc
  rw [hLu, getD_append_one, if_neg (lt_irrefl _), if_pos rfl]

theorem add_edge_bwd (g : Graph) (u v : Nat) (c : ℚ) (hu : u < g.length)
    (hv : v < g.length) (huv : u ≠ v) :
    getArc (add_edge g u v c).1 v (listAt g v).length =
      ⟨u, (listAt g u).length, 0, 0⟩ := by
  obtain ⟨-, -, -, hLv, -, -⟩ := add_edge_spec g u v c hu hv huv
  unfold getArc
  rw [hLv, getD_append_one, if_neg (lt_irrefl _), if_pos rfl]

theorem listAt_replicate_nil (n u : Nat) :
    listAt (List.replicate n ([] : List Edge)) u = [] := by
  unfold listAt
  induction n generalizing u with
  | zero => cases u <;> rfl
  | succ n ih =>
    cases u with
    | zero => rfl
    | succ u => simp only [List.replicate, List.getD_cons_succ]; exact ih u

theorem Inv_replicate_nil (n : Nat) : Inv (List.replicate n ([] : List Edge)) := by
  intro u i h
  rw [hasArc, listAt_replicate_nil] at h
  exact absurd h (Nat.not_lt_zero i)

/-- C6 (amended): in a well-paired graph, an `add_edge` call with
distinct endpoints keeps the graph well paired, and the freshly
created forward arc together with its paired reverse arc satisfies
`remaining_forward + remaining_reverse = original_forward` immediately
after creation and after any run of the max-flow engine (which pushes
flow only by transferring capacity inside residual pairs).  For
`u = v` the source stores a self-referential `rev` index and the
stated identity fails at creation, so the distinct-endpoint hypothesis
is necessary. -/
theorem c6_pair_sum_invariant (g : Graph) (u v : Nat) (c : ℚ) (hg : Inv g)
    (hu : u < g.length) (hv : v < g.length) (huv : u ≠ v) :
    Inv (add_edge g u v c).1 ∧
    ((getArc (add_edge g u v c).1 u (add_edge g u v c).2.2).cap +
      (getArc (add_edge g u v c).1
        (getArc (add_edge g u v c).1 u (add_edge g u v c).2.2).to_
        (getArc (add_edge g u v c).1 u (add_edge g u v c).2.2).rev).cap =
      (getArc (add_edge g u v c).1 u (add_edge g u v c).2.2).orig) ∧
    ∀ n s t,
      (getArc (max_flow (add_edge g u v c).1 n s t).2 u (add_edge g u v c).2.2).cap +
        (getArc (max_flow (add_edge g u v c).1 n s t).2
          (getArc (max_flow (add_edge g u v c).1 n s t).2 u (add_edge g u v c).2.2).to_
          (getArc (max_flow (add_edge g u v c).1 n s t).2 u (add_edge g u v c).2.2).rev).cap =
        (getArc (max_flow (add_edge g u v c).1 n s t).2 u (add_edge g u v c).2.2).orig := by
  obtain ⟨-, hpos, hLu, hLv, -, -⟩ := add_edge_spec g u v c hu hv huv
  have hfwd := add_edge_fwd g u v c hu hv huv
  have hbwd := add_edge_bwd g u v c hu hv huv
  have hInv := add_edge_inv g u v c hg hu hv huv
  have hlenu : (listAt (add_edge g u v c).1 u).length = (listAt g u).length + 1 := by
    rw [hLu, List.length_append, List.length_singleton]
  refine ⟨hInv, ?_, ?_⟩
  · rw [hpos, hfwd]
    rw [show (Edge.mk v (listAt g v).length c c).to_ = v from rfl,
      show (Edge.mk v (listAt g v).length c c).rev = (listAt g v).length from rfl, hbwd]
    show c + 0 = c
    ring
  · intro n s t
    obtain ⟨hInvF, hcoF⟩ := max_flow_inv (add_edge g u v c).1 n s t hInv
    have hA : hasArc (max_flow (add_edge g u v c).1 n s t).2 u (add_edge g u v c).2.2 := by
      rw [hasArc, hcoF.2.1, hlenu, hpos]
      exact Nat.lt_succ_self _
    obtain ⟨h1, h2, h3, h4⟩ := hInvF u (add_edge g u v c).2.2 hA
    have htoF : (getArc (max_flow (add_edge g u v c).1 n s t).2 u
        (add_edge g u v c).2.2).to_ = v := by
      rw [(hcoF.2.2 u (add_edge g u v c).2.2).1, hpos, hfwd]
    have hrevF : (getArc (max_flow (add_edge g u v c).1 n s t).2 u
        (add_edge g u v c).2.2).rev = (listAt g v).length := by
      rw [(hcoF.2.2 u (add_edge g u v c).2.2).2.1, hpos, hfwd]
    have horigF : (getArc (max_flow (add_edge g u v c).1 n s t).2 u
        (add_edge g u v c).2.2).orig = c := by
      rw [(hcoF.2.2 u (add_edge g u v c).2.2).2.2, hpos, hfwd]
    have hpairO : (getArc (max_flow (add_edge g u v c).1 n s t).2 v
        (listAt g v).length).orig = 0 := by
      rw [(hcoF.2.2 v (listAt g v).length).2.2, hbwd]
    rw [htoF, hrevF] at h4 ⊢
    rw [horigF] at h4 ⊢
    rw [hpairO] at h4
    linarith [h4]

/-- C6 counterexample: `add_edge(0, 0, 5)` on a one-node graph gives
the forward arc a `rev` index that points at the forward arc itself,
so the sum of the arc's remaining capacity and its stored pair's
remaining capacity is `10`, not the original capacity `5`. -/
theorem c6_counterexample :
    (getArc (add_edge [([] : List Edge)] 0 0 5).1 0
        (add_edge [([] : List Edge)] 0 0 5).2.2).cap +
      (getArc (add_edge [([] : List Edge)] 0 0 5).1
        (getArc (add_edge [([] : List Edge)] 0 0 5).1 0
          (add_edge [([] : List Edge)] 0 0 5).2.2).to_
        (getArc (add_edge [([] : List Edge)] 0 0 5).1 0
          (add_edge [([] : List Edge)] 0 0 5).2.2).rev).cap ≠
      (getArc (add_edge [([] : List Edge)] 0 0 5).1 0
        (add_edge [([] : List Edge)] 0 0 5).2.2).orig := by
  with_unfolding_all decide

/-- Witness for C6 at the two-node empty graph with a `0 → 1` arc of
capacity `5`, run through `max_flow` from `0` to `1`. -/
theorem c6_witness :
    Inv (add_edge [([] : List Edge), []] 0 1 5).1 ∧
    (getArc (max_flow (add_edge [([] : List Edge), []] 0 1 5).1 2 0 1).2 0
        (add_edge [([] : List Edge), []] 0 1 5).2.2).cap +
      (getArc (max_flow (add_edge [([] : List Edge), []] 0 1 5).1 2 0 1).2
        (getArc (max_flow (add_edge [([] : List Edge), []] 0 1 5).1 2 0 1).2 0
          (add_edge [([] : List Edge), []] 0 1 5).2.2).to_
        (getArc (max_flow (add_edge [([] : List Edge), []] 0 1 5).1 2 0 1).2 0
          (add_edge [([] : List Edge), []] 0 1 5).2.2).rev).cap =
      (getArc (max_flow (add_edge [([] : List Edge), []] 0 1 5).1 2 0 1).2 0
        (add_edge [([] : List Edge), []] 0 1 5).2.2).orig := by
  have h := c6_pair_sum_invariant [([] : List Edge), []] 0 1 5
    (by
      have := Inv_replicate_nil 2
      simpa using this)
    (by decide) (by decide) (by decide)
  exact ⟨h.1, h.2.2 2 0 1⟩

/-! ## Claim C3: malformed bounds -/

theorem processEdges_err :
    ∀ (l : List EdgeIn), (∃ e ∈ l, e.hi + EPS < e.lo) →
    ∃ e ∈ l, e.hi + EPS < e.lo ∧
      ∀ (inId outId : String → Nat) (g : Graph) (recs : List EdgeRec) (dem : List ℚ),
        processEdges inId outId l g recs dem =
          .error (.infeasible [] ⟨e.lo - e.hi, [], []⟩) := by
  intro l
  induction l with
  | nil =>
    intro h
    obtain ⟨e, he, -⟩ := h
    exact absurd he (List.not_mem_nil e)
  | cons e0 rest ih =>
    intro h
    by_cases h0 : e0.hi + EPS < e0.lo
    · refine ⟨e0, List.mem_cons_self e0 rest, h0, ?_⟩
      intro inId outId g recs dem
      simp only [processEdges]
      rw [if_pos h0]
    · have hrest : ∃ e ∈ rest, e.hi + EPS < e.lo := by
        obtain ⟨e, he, hlt⟩ := h
        rcases List.mem_cons.mp he with rfl | hmem
        · exact absurd hlt h0
        · exact ⟨e, hmem, hlt⟩
      obtain ⟨e, hmem, hlt, heq⟩ := ih hrest
      refine ⟨e, List.mem_cons_of_mem e0 hmem, hlt, ?_⟩
      intro inId outId g recs dem
      simp only [processEdges]
      rw [if_neg h0]
      exact heq inId outId _ _ _

theorem build_err_of_bad_edge (inp : Input) (h : ∃ e ∈ inp.edges, e.hi + EPS < e.lo) :
    ∃ e ∈ inp.edges, e.hi + EPS < e.lo ∧
      build inp = .error (.infeasible [] ⟨e.lo - e.hi, [], []⟩) := by
  have hperm : List.Perm (List.insertionSort edgeLE inp.edges) inp.edges :=
    List.perm_insertionSort edgeLE inp.edges
  have hsorted : ∃ e ∈ List.insertionSort edgeLE inp.edges, e.hi + EPS < e.lo := by
    obtain ⟨e, he, hlt⟩ := h
    exact ⟨e, hperm.mem_iff.mpr he, hlt⟩
  obtain ⟨e, hmem, hlt, heq⟩ := processEdges_err _ hsorted
  refine ⟨e, hperm.mem_iff.mp hmem, hlt, ?_⟩
  unfold build
  simp only [heq]

/-- C3: an input containing an edge with `hi + EPS < lo` makes
`solve_belts` return `status: infeasible` with an empty
`cut_reachable`, `deficit.demand_balance = lo - hi` for such an edge
(the first one in `(from, to)`-sorted order), and empty `tight_nodes`
and `tight_edges`, regardless of the rest of the network. -/
theorem c3_malformed_bounds (inp : Input) (h : ∃ e ∈ inp.edges, e.hi + EPS < e.lo) :
    ∃ e ∈ inp.edges, e.hi + EPS < e.lo ∧
      solve_belts inp = Result.infeasible [] ⟨e.lo - e.hi, [], []⟩ := by
  obtain ⟨e, hmem, hlt, heq⟩ := build_err_of_bad_edge inp h
  refine ⟨e, hmem, hlt, ?_⟩
  unfold solve_belts
  rw [heq]

/-! ## Decomposing the orchestrator -/

theorem buildCert_eq (nodes : List String) (inId outId : String → Nat)
    (recs : List EdgeRec) (ref : List (String × Nat × Nat)) (g : Graph)
    (vis : List Bool) (balance : ℚ) :
    buildCert nodes inId outId recs ref g vis balance =
      Result.infeasible
        (sortNames (nodes.filter (fun name =>
          vis.getD (inId name) false || vis.getD (outId name) false)))
        ⟨pyRound9 balance,
         sortNames ((ref.filter
           (fun p => (getArc g p.2.1 p.2.2).cap ≤ EPS)).map Prod.fst),
         (recs.filter (fun rec =>
           (vis.getD rec.u_idx false &&
             !(vis.getD (getArc g rec.u_idx rec.pos).to_ false)) &&
             (getArc g rec.u_idx rec.pos).cap ≤ EPS)).map
           (fun rec => TightEdge.mk rec.u_name rec.v_name
             (rec.lo + (getArc g rec.u_idx rec.pos).orig))⟩ := rfl

theorem buildCert_ne_ok (nodes : List String) (inId outId : String → Nat)
    (recs : List EdgeRec) (ref : List (String × Nat × Nat)) (g : Graph)
    (vis : List Bool) (balance : ℚ) (m : ℚ) (fl : List FlowOut) :
    buildCert nodes inId outId recs ref g vis balance ≠ Result.ok m fl := by
  rw [buildCert_eq]
  intro h
  exact Result.noConfusion h

theorem processEdges_error_shape (inId outId : String → Nat) :
    ∀ (l : List EdgeIn) (g : Graph) (recs : List EdgeRec) (dem : List ℚ) (r : Result),
    processEdges inId outId l g recs dem = .error r →
    ∃ d : Deficit, r = .infeasible [] d := by
  intro l
  induction l with
  | nil =>
    intro g recs dem r h
    exact absurd h (by simp [processEdges])
  | cons e0 rest ih =>
    intro g recs dem r h
    simp only [processEdges] at h
    by_cases h0 : e0.hi + EPS < e0.lo
    · rw [if_pos h0] at h
      exact ⟨_, (Except.error.injEq _ _).mp h |>.symm⟩
    · rw [if_neg h0] at h
      exact ih _ _ _ r h

theorem build_error_shape (inp : Input) (r : Result) (h : build inp = .error r) :
    ∃ d : Deficit, r = .infeasible [] d := by
  unfold build at h
  revert h
  split
  · next heq =>
    intro h
    obtain ⟨d, rfl⟩ := processEdges_error_shape _ _ _ _ _ _ _ heq
    exact ⟨d, ((Except.error.injEq _ _).mp h).symm ▸ rfl⟩
  · next heq =>
    intro h
    exact absurd h (by simp)

theorem processSources_error_shape (sources : List (String × ℚ)) (outId : String → Nat)
    (hasOut : String → Bool) (S_main : Nat) :
    ∀ (keys : List String) (g : Graph) (total : ℚ) (r : Result),
    processSources sources outId hasOut S_main keys g total = .error r →
    ∃ d : Deficit, r = .infeasible [] d := by
  intro keys
  induction keys with
  | nil =>
    intro g total r h
    exact absurd h (by simp [processSources])
  | cons k rest ih =>
    intro g total r h
    simp only [processSources] at h
    by_cases h0 : !hasOut k
    · rw [if_pos h0] at h
      exact ⟨_, ((Except.error.injEq _ _).mp h).symm⟩
    · rw [if_neg h0] at h
      split at h <;> split at h <;> exact ih _ _ r h

theorem reconstruct_ok {sinkName : String} {recs : List EdgeRec} {g : Graph}
    {m : ℚ} {fl : List FlowOut}
    (h : reconstruct sinkName recs g = .ok m fl) :
    fl = recs.map (reconOne g) ∧
      m = pyRound9 (((recs.map (reconOne g)).filter
        (fun f => f.to_ == sinkName)).foldl (fun a f => a + f.flow) 0) := by
  unfold reconstruct at h
  obtain ⟨h1, h2⟩ := (Result.ok.injEq _ _ _ _).mp h
  exact ⟨h2.symm, h1.symm⟩

theorem solve_ok_decompose (inp : Input) (m : ℚ) (fl : List FlowOut)
    (h : solve_belts inp = .ok m fl) :
    ∃ c, build inp = .ok c ∧
      |(max_flow c.g c.N c.S_star c.T_star).1 - c.total_pos_demand| ≤ 1 / 1000000 ∧
      afterLB inp c (max_flow c.g c.N c.S_star c.T_star).2 = .ok m fl := by
  unfold solve_belts at h
  revert h
  split
  · next r heq =>
    intro h
    obtain ⟨d, rfl⟩ := build_error_shape inp r heq
    exact absurd h (by simp)
  · next c heq =>
    intro h
    by_cases hph : 1 / 1000000 < |(max_flow c.g c.N c.S_star c.T_star).1 - c.total_pos_demand|
    · rw [if_pos hph] at h
      exact absurd h (by
        unfold lowerCert
        exact buildCert_ne_ok _ _ _ _ _ _ _ _ _ _)
    · rw [if_neg hph] at h
      exact ⟨c, heq, le_of_not_lt hph, h⟩

theorem afterLB_ok_decompose (inp : Input) (c : Ctx) (g1 : Graph) (m : ℚ)
    (fl : List FlowOut) (h : afterLB inp c g1 = .ok m fl) :
    ∃ g2 ts sname,
      processSources inp.sources c.out_id (fun n => c.nodes.contains n) c.S_main
        (sortNames (dkeys inp.sources)) g1 0 = .ok (g2, ts) ∧
      inp.sink = some sname ∧ c.nodes.contains sname = true ∧
      |(max_flow (add_edge g2 (c.in_id sname) c.T_main ts).1 c.N c.S_main
          c.T_main).1 - ts| ≤ 1 / 1000000 ∧
      reconstruct sname c.edge_records
        (max_flow (add_edge g2 (c.in_id sname) c.T_main ts).1 c.N c.S_main
          c.T_main).2 = .ok m fl := by
  unfold afterLB at h
  revert h
  split
  · next r heq =>
    intro h
    obtain ⟨d, rfl⟩ := processSources_error_shape _ _ _ _ _ _ _ _ heq
    exact absurd h (by simp)
  · next g2 ts heq =>
    intro h
    revert h
    split
    · intro h
      exact absurd h (by simp)
    · next sname hsink =>
      intro h
      by_cases hcont : !(c.nodes.contains sname)
      · rw [if_pos hcont] at h
        exact absurd h (by simp)
      · rw [if_neg hcont] at h
        by_cases hph : 1 / 1000000 <
            |(max_flow (add_edge g2 (c.in_id sname) c.T_main ts).1 c.N c.S_main
              c.T_main).1 - ts|
        · rw [if_pos hph] at h
          exact absurd h (buildCert_ne_ok _ _ _ _ _ _ _ _ _ _)
        · rw [if_neg hph] at h
          exact ⟨g2, ts, sname, heq, hsink, by
            revert hcont
            cases c.nodes.contains sname <;> simp, le_of_not_lt hph, h⟩

/-! ## Claim C5: the lower-bound feasibility gate -/

/-- C5: once the graph is built, `solve_belts` terminates with the
lower-bound certificate exactly when the circulation max-flow from
`S*` to `T*` misses `total_pos_demand` by more than `1e-6` (and the
certificate's `demand_balance` is the rounded shortfall); otherwise it
proceeds to the supply/delivery stage. -/
theorem c5_lower_bound_gate (inp : Input) (c : Ctx) (hb : build inp = .ok c) :
    (1 / 1000000 < |(max_flow c.g c.N c.S_star c.T_star).1 - c.total_pos_demand| →
      solve_belts inp =
        lowerCert c (max_flow c.g c.N c.S_star c.T_star).1
          (max_flow c.g c.N c.S_star c.T_star).2 ∧
      ∃ cut d, solve_belts inp = Result.infeasible cut d ∧
        d.demand_balance =
          pyRound9 (c.total_pos_demand - (max_flow c.g c.N c.S_star c.T_star).1)) ∧
    (|(max_flow c.g c.N c.S_star c.T_star).1 - c.total_pos_demand| ≤ 1 / 1000000 →
      solve_belts inp = afterLB inp c (max_flow c.g c.N c.S_star c.T_star).2) := by
  constructor
  · intro hgt
    have hs : solve_belts inp =
        lowerCert c (max_flow c.g c.N c.S_star c.T_star).1
          (max_flow c.g c.N c.S_star c.T_star).2 := by
      unfold solve_belts
      simp only [hb]
      rw [if_pos hgt]
    refine ⟨hs, ?_⟩
    rw [hs]
    unfold lowerCert
    rw [buildCert_eq]
    exact ⟨_, _, rfl, rfl⟩
  · intro hle
    unfold solve_belts
    simp only [hb]
    rw [if_neg (not_lt.mpr hle)]

/-- Witness for C5 at the edgeless input with sink `T`: the gate
passes (`0` flow versus `0` demand) and the solve equals the
supply-stage continuation. -/
theorem c5_witness :
    solve_belts (Input.mk [] [] (some "T") []) =
      afterLB (Input.mk [] [] (some "T") [])
        (Ctx.mk ["T"] [("T", 0, 0)] 1 2 3 4 5 [[], [], [], [], []] [] [] 0)
        (max_flow (Ctx.mk ["T"] [("T", 0, 0)] 1 2 3 4 5
            [[], [], [], [], []] [] [] 0).g 5 1 2).2 :=
  (c5_lower_bound_gate (Input.mk [] [] (some "T") [])
    (Ctx.mk ["T"] [("T", 0, 0)] 1 2 3 4 5 [[], [], [], [], []] [] [] 0)
    (by with_unfolding_all rfl)).2 (by with_unfolding_all decide)

/-! ## Claim C8: certificate extraction -/

theorem sortNames_sorted (l : List String) : List.Sorted (· ≤ ·) (sortNames l) :=
  List.sorted_insertionSort _ l

/-- C8: on an infeasibility detected by either max-flow phase, the
emitted `cut_reachable` is the lexicographically sorted list of
external names whose `in_id` or `out_id` index is visited by the
residual BFS (`reach`, over arcs with remaining capacity above `EPS`)
from that phase's source super-node, and `tight_nodes` is
lexicographically sorted as well. -/
theorem c8_cut_reachable_sorted (inp : Input) (c : Ctx) (hb : build inp = .ok c) :
    (1 / 1000000 < |(max_flow c.g c.N c.S_star c.T_star).1 - c.total_pos_demand| →
      ∃ d : Deficit,
        solve_belts inp =
          Result.infeasible
            (sortNames (c.nodes.filter (fun name =>
              (reach (max_flow c.g c.N c.S_star c.T_star).2 c.N c.S_star).getD
                  (c.in_id name) false ||
                (reach (max_flow c.g c.N c.S_star c.T_star).2 c.N c.S_star).getD
                  (c.out_id name) false))) d ∧
        List.Sorted (· ≤ ·)
          (sortNames (c.nodes.filter (fun name =>
            (reach (max_flow c.g c.N c.S_star c.T_star).2 c.N c.S_star).getD
                (c.in_id name) false ||
              (reach (max_flow c.g c.N c.S_star c.T_star).2 c.N c.S_star).getD
                (c.out_id name) false))) ∧
        List.Sorted (· ≤ ·) d.tight_nodes) ∧
    (∀ g2 ts sname,
      |(max_flow c.g c.N c.S_star c.T_star).1 - c.total_pos_demand| ≤ 1 / 1000000 →
      processSources inp.sources c.out_id (fun n => c.nodes.contains n) c.S_main
        (sortNames (dkeys inp.sources)) (max_flow c.g c.N c.S_star c.T_star).2 0 =
          .ok (g2, ts) →
      inp.sink = some sname →
      c.nodes.contains sname = true →
      1 / 1000000 < |(max_flow (add_edge g2 (c.in_id sname) c.T_main ts).1 c.N
          c.S_main c.T_main).1 - ts| →
      ∃ d : Deficit,
        solve_belts inp =
          Result.infeasible
            (sortNames (c.nodes.filter (fun name =>
              (reach (max_flow (add_edge g2 (c.in_id sname) c.T_main ts).1 c.N
                  c.S_main c.T_main).2 c.N c.S_main).getD (c.in_id name) false ||
                (reach (max_flow (add_edge g2 (c.in_id sname) c.T_main ts).1 c.N
                  c.S_main c.T_main).2 c.N c.S_main).getD (c.out_id name) false))) d ∧
        List.Sorted (· ≤ ·)
          (sortNames (c.nodes.filter (fun name =>
            (reach (max_flow (add_edge g2 (c.in_id sname) c.T_main ts).1 c.N
                c.S_main c.T_main).2 c.N c.S_main).getD (c.in_id name) false ||
              (reach (max_flow (add_edge g2 (c.in_id sname) c.T_main ts).1 c.N
                c.S_main c.T_main).2 c.N c.S_main).getD (c.out_id name) false))) ∧
        List.Sorted (· ≤ ·) d.tight_nodes) := by
  constructor
  · intro hgt
    have hs : solve_belts inp =
        lowerCert c (max_flow c.g c.N c.S_star c.T_star).1
          (max_flow c.g c.N c.S_star c.T_star).2 := by
      unfold solve_belts
      simp only [hb]
      rw [if_pos hgt]
    rw [hs]
    unfold lowerCert
    rw [buildCert_eq]
    exact ⟨_, rfl, sortNames_sorted _, sortNames_sorted _⟩
  · intro g2 ts sname hle hps hsink hcont hgt
    have hs : solve_belts inp = afterLB inp c (max_flow c.g c.N c.S_star c.T_star).2 := by
      unfold solve_belts
      simp only [hb]
      rw [if_neg (not_lt.mpr hle)]
    rw [hs]
    unfold afterLB
    rw [hps]
    simp only [hsink]
    rw [if_neg (by rw [hcont]; exact Bool.false_ne_true ∘ fun h => h), if_pos hgt]
    rw [buildCert_eq]
    exact ⟨_, rfl, sortNames_sorted _, sortNames_sorted _⟩

/-- The input with the single edge `A→B(lo=5, hi=5)`: its lower bound
cannot circulate, so phase 1 fails. -/
def c8inp : Input := ⟨[⟨"A", "B", 5, 5⟩], [], some "T", []⟩

/-- The construction state `build` produces for `c8inp`. -/
def c8ctx : Ctx :=
  ⟨["A", "B", "T"], [("A", 0, 0), ("B", 1, 1), ("T", 2, 2)], 3, 4, 5, 6, 7,
    [[⟨1, 0, 0, 0⟩, ⟨4, 0, 5, 5⟩], [⟨0, 0, 0, 0⟩, ⟨3, 0, 0, 0⟩], [],
      [⟨1, 1, 5, 5⟩], [⟨0, 1, 0, 0⟩], [], []],
    [⟨"A", "B", 5, 5, 0, 0⟩], [], 5⟩

/-- Witness for C8: the input with the single edge `A→B(lo=5, hi=5)`
has an unsatisfiable lower bound, so phase 1 fails and emits a sorted
cut and sorted tight nodes. -/
theorem c8_witness :
    ∃ (cut : List String) (d : Deficit),
      solve_belts c8inp = Result.infeasible cut d ∧
      List.Sorted (· ≤ ·) cut ∧ List.Sorted (· ≤ ·) d.tight_nodes := by
  obtain ⟨d, h1, h2, h3⟩ := (c8_cut_reachable_sorted c8inp c8ctx
    (by with_unfolding_all rfl)).1 (by with_unfolding_all decide)
  exact ⟨_, d, h1, h2, h3⟩

/-! ## Claim C7: flow reconstruction -/

/-- The bottleneck scenario with supply equal to the deliverable
amount `5`. -/
def scenarioA5 : Input :=
  ⟨[⟨"S", "A", 0, 10⟩, ⟨"A", "B", 0, 5⟩, ⟨"B", "T", 0, 10⟩],
    [("S", 5)], some "T", [("A", 8), ("B", 10)]⟩

/-- Witness for C3 on the input with the single edge `A→B(lo=10, hi=5)`. -/
theorem c3_witness :
    ∃ e ∈ (Input.mk [⟨"A", "B", 10, 5⟩] [] (some "T") []).edges,
      e.hi + EPS < e.lo ∧
        solve_belts (Input.mk [⟨"A", "B", 10, 5⟩] [] (some "T") []) =
          Result.infeasible [] ⟨e.lo - e.hi, [], []⟩ :=
  c3_malformed_bounds (Input.mk [⟨"A", "B", 10, 5⟩] [] (some "T") [])
    ⟨⟨"A", "B", 10, 5⟩, List.mem_singleton.mpr rfl, by norm_num [EPS]⟩

/-! ## Claim C2: order of the `flows` array -/

theorem processEdges_names (inId outId : String → Nat) :
    ∀ (l : List EdgeIn) (g : Graph) (recs : List EdgeRec) (dem : List ℚ)
      (g2 : Graph) (recs2 : List EdgeRec) (dem2 : List ℚ),
    processEdges inId outId l g recs dem = .ok (g2, recs2, dem2) →
    recs2.map (fun r => (r.u_name, r.v_name)) =
      recs.map (fun r => (r.u_name, r.v_name)) ++
        l.map (fun e => (e.from_, e.to_)) := by
  intro l
  induction l with
  | nil =>
    intro g recs dem g2 recs2 dem2 h
    simp only [processEdges, Except.ok.injEq, Prod.mk.injEq] at h
    obtain ⟨-, h2, -⟩ := h
    rw [← h2]
    simp
  | cons e0 rest ih =>
    intro g recs dem g2 recs2 dem2 h
    simp only [processEdges] at h
    by_cases h0 : e0.hi + EPS < e0.lo
    · rw [if_pos h0] at h
      exact absurd h (by simp)
    · rw [if_neg h0] at h
      have := ih _ _ _ _ _ _ h
      rw [this]
      simp

theorem build_records_names (inp : Input) (c : Ctx) (hb : build inp = .ok c) :
    c.edge_records.map (fun r => (r.u_name, r.v_name)) =
      (List.insertionSort edgeLE inp.edges).map (fun e => (e.from_, e.to_)) := by
  unfold build at hb
  revert hb
  split
  · intro hb
    exact absurd hb (by simp)
  · next g2 recs dem heq =>
    intro hb
    have hc : c.edge_records = recs := by
      obtain h := (Except.ok.injEq _ _).mp hb
      rw [← h]
    rw [hc]
    have := processEdges_names (bInId inp) (bOutId inp) _ _ _ _ _ _ _ heq
    rw [this]
    simp

/-- C2 (amended): on every successful solve, `flows` has exactly one
entry per declared edge (the emitted list of `(from, to)` pairs is the
image of a permutation of the declared edges), but the entries appear
in `(from, to)`-lexicographic order — the order produced by the stable
sort at graph-construction time — not in declaration order. -/
theorem c2_flow_order (inp : Input) (m : ℚ) (fl : List FlowOut)
    (h : solve_belts inp = .ok m fl) :
    fl.map (fun f => (f.from_, f.to_)) =
      (List.insertionSort edgeLE inp.edges).map (fun e => (e.from_, e.to_)) ∧
    List.Perm (List.insertionSort edgeLE inp.edges) inp.edges ∧
    List.Sorted edgeLE (List.insertionSort edgeLE inp.edges) := by
  obtain ⟨c, hb, hph1, hA⟩ := solve_ok_decompose inp m fl h
  obtain ⟨g2, ts, sname, hps, hsink, hcont, hph2, hrec⟩ :=
    afterLB_ok_decompose inp c _ m fl hA
  obtain ⟨hfl, hm⟩ := reconstruct_ok hrec
  refine ⟨?_, List.perm_insertionSort edgeLE inp.edges,
    List.sorted_insertionSort edgeLE inp.edges⟩
  rw [hfl, ← build_records_names inp c hb, List.map_map]
  rfl

/-- Two edges declared in non-lexicographic order: `S→A` before `A→T`. -/
def c2inp : Input :=
  ⟨[⟨"S", "A", 0, 10⟩, ⟨"A", "T", 0, 10⟩], [("S", 10)], some "T", []⟩

set_option maxRecDepth 200000 in
/-- C2 counterexample: for `c2inp` the solve succeeds but the `flows`
entries appear in sorted order `A→T, S→A`, not in the declared order
`S→A, A→T`. -/
theorem c2_counterexample :
    solve_belts c2inp = Result.ok 10 [⟨"A", "T", 10⟩, ⟨"S", "A", 10⟩] ∧
    [FlowOut.mk "A" "T" 10, ⟨"S", "A", 10⟩].map (fun f => (f.from_, f.to_)) ≠
      c2inp.edges.map (fun e => (e.from_, e.to_)) := by
  constructor
  · with_unfolding_all rfl
  · decide

set_option maxRecDepth 200000 in
/-- Witness for C2 at `c2inp`. -/
theorem c2_witness :
    [FlowOut.mk "A" "T" 10, ⟨"S", "A", 10⟩].map (fun f => (f.from_, f.to_)) =
      (List.insertionSort edgeLE c2inp.edges).map (fun e => (e.from_, e.to_)) ∧
    List.Perm (List.insertionSort edgeLE c2inp.edges) c2inp.edges ∧
    List.Sorted edgeLE (List.insertionSort edgeLE c2inp.edges) :=
  c2_flow_order c2inp 10 [⟨"A", "T", 10⟩, ⟨"S", "A", 10⟩]
    (by with_unfolding_all rfl)

/-! ## Claim C1: the bottleneck scenario -/

/-- Scenario A of the specification: supply `10` at `S`, deliverable
amount `5` (bottleneck `A→B`). -/
def scenarioA : Input :=
  ⟨[⟨"S", "A", 0, 10⟩, ⟨"A", "B", 0, 5⟩, ⟨"B", "T", 0, 10⟩],
    [("S", 10)], some "T", [("A", 8), ("B", 10)]⟩

set_option maxRecDepth 200000 in
/-- C1 counterexample: on Scenario A the delivery phase pushes only
`5` of the declared supply `10`, and since the code demands that the
whole supply be deliverable it reports infeasibility (cut
`["A", "S"]`, shortfall `5`, tight edge `A→B`) — it does not report
`status: ok` with `max_flow_per_min = 5`. -/
theorem c1_counterexample :
    solve_belts scenarioA =
      Result.infeasible ["A", "S"] ⟨5, [], [⟨"A", "B", 5⟩]⟩ ∧
    ¬ ∃ fl, solve_belts scenarioA = Result.ok 5 fl := by
  have h : solve_belts scenarioA =
      Result.infeasible ["A", "S"] ⟨5, [], [⟨"A", "B", 5⟩]⟩ := by
    with_unfolding_all rfl
  refine ⟨h, ?_⟩
  rintro ⟨fl, hc⟩
  rw [h] at hc
  exact Result.noConfusion hc

set_option maxRecDepth 200000 in
/-- C1 (amended): `solve_belts` succeeds only when the whole declared
supply can be delivered.  On Scenario A (supply `10`, deliverable `5`)
it returns `status: infeasible` with `demand_balance = 5`; on the same
network with supply `5` it returns `status: ok` with
`max_flow_per_min = 5` and the expected per-edge flows. -/
theorem c1_scenarioA_requires_full_delivery :
    solve_belts scenarioA =
      Result.infeasible ["A", "S"] ⟨5, [], [⟨"A", "B", 5⟩]⟩ ∧
    solve_belts scenarioA5 =
      Result.ok 5 [⟨"A", "B", 5⟩, ⟨"B", "T", 5⟩, ⟨"S", "A", 5⟩] := by
  constructor
  · with_unfolding_all rfl
  · with_unfolding_all rfl

/-! ## Claim C4: a source name not mentioned anywhere else -/

/-- The source `X` appears in no edge, is not the sink and has no
node cap. -/
def c4inp : Input := ⟨[], [("X", 5)], some "T", []⟩

/-- As `c4inp`, plus a second, fully deliverable source `A`. -/
def c4inp2 : Input := ⟨[⟨"A", "T", 0, 7⟩], [("A", 7), ("X", 5)], some "T", []⟩

/-- C4 counterexample: a source name absent from edges, sink and
node_caps still joins the node set (line 128 of the source), so the
"source not in node set" early return with an empty cut is
unreachable; instead the delivery phase fails with the isolated source
inside `cut_reachable`, which is therefore *not* empty. -/
theorem c4_counterexample :
    solve_belts c4inp = Result.infeasible ["X"] ⟨5, [], []⟩ ∧
    (["X"] : List String) ≠ [] := by
  constructor
  · with_unfolding_all rfl
  · decide

/-- C4 (amended): an input whose source does not appear among the
edges, the sink or node_caps is reported infeasible by the *delivery
phase*, with the isolated source's name contained in `cut_reachable`
(a non-empty cut) and `deficit.demand_balance` equal to that source's
declared supply — both alone and next to a second source whose supply
is deliverable. -/
theorem c4_unknown_source_nonempty_cut :
    (∃ cut d, solve_belts c4inp = Result.infeasible cut d ∧
      "X" ∈ cut ∧ d.demand_balance = 5) ∧
    (∃ cut d, solve_belts c4inp2 = Result.infeasible cut d ∧
      "X" ∈ cut ∧ d.demand_balance = 5) := by
  constructor
  · refine ⟨["X"], ⟨5, [], []⟩, ?_, ?_, rfl⟩
    · with_unfolding_all rfl
    · decide
  · refine ⟨["X"], ⟨5, [], []⟩, ?_, ?_, rfl⟩
    · with_unfolding_all rfl
    · decide

/-! ## Claims C9 and C10: dictionary-order invariance -/

theorem sortNames_eq_of_perm {l l2 : List String} (h : List.Perm l l2) :
    sortNames l = sortNames l2 :=
  List.eq_of_perm_of_sorted
    (((List.perm_insertionSort _ l).trans h).trans (List.perm_insertionSort _ l2).symm)
    (sortNames_sorted l) (sortNames_sorted l2)

theorem contains_eq_of_perm {l l2 : List String} (h : List.Perm l l2) (a : String) :
    l.contains a = l2.contains a := by
  cases hc : l.contains a with
  | true =>
    have hm : a ∈ l2 := h.mem_iff.mp (List.elem_iff.mp hc)
    exact (List.elem_iff.mpr hm).symm
  | false =>
    cases hc2 : l2.contains a with
    | false => rfl
    | true =>
      have hm : a ∈ l := h.mem_iff.mpr (List.elem_iff.mp hc2)
      exact hc ▸ List.elem_iff.mpr hm

theorem filter_key_length_le_one {l : List (String × ℚ)}
    (nd : (l.map Prod.fst).Nodup) (k : String) :
    (l.filter (fun p => p.1 == k)).length ≤ 1 := by
  induction l with
  | nil => simp
  | cons a l ih =>
    simp only [List.map_cons, List.nodup_cons] at nd
    by_cases hk : a.1 == k
    · have hnil : l.filter (fun p => p.1 == k) = [] := by
        rw [List.filter_eq_nil_iff]
        intro p hp hpk
        apply nd.1
        have h1 : p.1 = k := eq_of_beq hpk
        have h2 : a.1 = k := eq_of_beq hk
        rw [h2, ← h1]
        exact List.mem_map_of_mem Prod.fst hp
      rw [List.filter_cons, if_pos hk, hnil]
      exact le_refl 1
    · rw [List.filter_cons, if_neg hk]
      exact ih nd.2

theorem perm_eq_of_length_le_one {α : Type} {l l2 : List α}
    (h : List.Perm l l2) (hl : l.length ≤ 1) : l = l2 := by
  cases l with
  | nil => exact (h.symm.eq_nil).symm
  | cons a l1 =>
    cases l1 with
    | nil =>
      cases l2 with
      | nil => exact h.eq_nil
      | cons b l3 =>
        have hlen := h.length_eq
        have hmem : a ∈ [b] ++ l3 := h.mem_iff.mp (List.mem_singleton.mpr rfl)
        cases l3 with
        | nil =>
          simp only [List.append_nil] at hmem
          rw [List.mem_singleton.mp hmem]
        | cons c l4 => simp at hlen
    | cons b l2' => simp at hl

theorem dget_eq_of_perm {l l2 : List (String × ℚ)} (h : List.Perm l l2)
    (nd : (l.map Prod.fst).Nodup) (k : String) : dget l k = dget l2 k := by
  unfold dget
  rw [perm_eq_of_length_le_one (h.filter _) (filter_key_length_le_one nd k)]

/-- Walking the same key list over two stores gives the same result
when every key either carries the same value in both, or is a known
node whose (clamped) supply is non-positive in both — in the latter
case the iteration is a no-op on either side. -/
theorem processSources_congr (sources sources' : List (String × ℚ))
    (outId : String → Nat) (hasOut : String → Bool) (S_main : Nat) :
    ∀ (keys : List String) (g : Graph) (total : ℚ),
    (∀ k ∈ keys,
      (dget sources k).getD 0 = (dget sources' k).getD 0 ∨
      (hasOut k = true ∧
        ¬(0 < (if (dget sources k).getD 0 < -EPS then 0
          else (dget sources k).getD 0)) ∧
        ¬(0 < (if (dget sources' k).getD 0 < -EPS then 0
          else (dget sources' k).getD 0)))) →
    processSources sources outId hasOut S_main keys g total =
      processSources sources' outId hasOut S_main keys g total := by
  intro keys
  induction keys with
  | nil =>
    intro g total h
    rfl
  | cons k rest ih =>
    intro g total h
    have hrest : ∀ k2 ∈ rest, _ := fun k2 hk2 => h k2 (List.mem_cons_of_mem k hk2)
    simp only [processSources]
    rcases h k (List.mem_cons_self k rest) with heq | ⟨hout, hnp, hnp'⟩
    · rw [heq]
      by_cases h1 : !hasOut k
      · rw [if_pos h1, if_pos h1]
      · rw [if_neg h1, if_neg h1]
        by_cases h2 : 0 < (if (dget sources' k).getD 0 < -EPS then 0
            else (dget sources' k).getD 0)
        · rw [if_pos h2, if_pos h2]
          exact ih _ _ hrest
        · rw [if_neg h2, if_neg h2]
          exact ih _ _ hrest
    · have h1 : ¬((!hasOut k) = true) := by
        rw [hout]
        decide
      rw [if_neg h1, if_neg h1, if_neg hnp, if_neg hnp']
      exact ih _ _ hrest

theorem addSplitArcs_congr {nc nc' : List (String × ℚ)}
    (hg : ∀ k, dget nc k = dget nc' k) (inId outId : String → Nat) :
    ∀ (l : List String) (g : Graph) (ref : List (String × Nat × Nat)),
    addSplitArcs nc inId outId l g ref = addSplitArcs nc' inId outId l g ref := by
  intro l
  induction l with
  | nil =>
    intro g ref
    rfl
  | cons name rest ih =>
    intro g ref
    simp only [addSplitArcs]
    rw [hg name]
    by_cases hs : inId name ≠ outId name
    · rw [if_pos hs, if_pos hs]
      exact ih _ _
    · rw [if_neg hs, if_neg hs]
      exact ih _ _

/-- C9: `solve_belts` is a pure function of the abstract input — in
particular, re-listing the entries of the `sources` or `node_caps`
JSON object in any other order (the only representation freedom a
byte-level change of an object with distinct keys can produce in the
model) leaves every field of the output unchanged, so two solves on
the same input document produce the same output document. -/
theorem c9_determinism (edges : List EdgeIn) (sink : Option String)
    (sources sources' node_caps node_caps' : List (String × ℚ))
    (hs : List.Perm sources sources') (hc : List.Perm node_caps node_caps')
    (nds : (sources.map Prod.fst).Nodup) (ndc : (node_caps.map Prod.fst).Nodup) :
    solve_belts ⟨edges, sources, sink, node_caps⟩ =
      solve_belts ⟨edges, sources', sink, node_caps'⟩ := by
  have hnames : sorted_nodes ⟨edges, sources, sink, node_caps⟩ =
      sorted_nodes ⟨edges, sources', sink, node_caps'⟩ := by
    unfold sorted_nodes allNames
    exact sortNames_eq_of_perm (List.Perm.dedup
      ((((List.Perm.refl _).append (hs.map Prod.fst)).append
        (List.Perm.refl _)).append (hc.map Prod.fst)))
  have hsplit : isSplit ⟨edges, sources, sink, node_caps⟩ =
      isSplit ⟨edges, sources', sink, node_caps'⟩ := by
    funext name
    unfold isSplit containsKey
    rw [contains_eq_of_perm (hc.map Prod.fst), contains_eq_of_perm (hs.map Prod.fst)]
  have hids : bIds ⟨edges, sources, sink, node_caps⟩ =
      bIds ⟨edges, sources', sink, node_caps'⟩ := by
    unfold bIds
    rw [hnames, hsplit]
  have hbin : bInId ⟨edges, sources, sink, node_caps⟩ =
      bInId ⟨edges, sources', sink, node_caps'⟩ := by
    funext n
    unfold bInId
    rw [hids]
  have hbout : bOutId ⟨edges, sources, sink, node_caps⟩ =
      bOutId ⟨edges, sources', sink, node_caps'⟩ := by
    funext n
    unfold bOutId
    rw [hids]
  have hbn : bN ⟨edges, sources, sink, node_caps⟩ =
      bN ⟨edges, sources', sink, node_caps'⟩ := by
    unfold bN
    rw [hids]
  have hsa : bSplitArcs ⟨edges, sources, sink, node_caps⟩ =
      bSplitArcs ⟨edges, sources', sink, node_caps'⟩ := by
    unfold bSplitArcs
    rw [hnames, hbin, hbout, hbn]
    exact addSplitArcs_congr (fun k => dget_eq_of_perm hc ndc k) _ _ _ _ _
  have hbuild : build ⟨edges, sources, sink, node_caps⟩ =
      build ⟨edges, sources', sink, node_caps'⟩ := by
    unfold build
    rw [hbin, hbout, hsa, hbn, hids, hnames]
  have hafter : ∀ c g1, afterLB ⟨edges, sources, sink, node_caps⟩ c g1 =
      afterLB ⟨edges, sources', sink, node_caps'⟩ c g1 := by
    intro c g1
    unfold afterLB
    have hkeys : sortNames (dkeys sources) = sortNames (dkeys sources') :=
      sortNames_eq_of_perm (hs.map Prod.fst).dedup
    have hps : processSources sources c.out_id (fun n => c.nodes.contains n) c.S_main
        (sortNames (dkeys sources)) g1 0 =
        processSources sources' c.out_id (fun n => c.nodes.contains n) c.S_main
          (sortNames (dkeys sources)) g1 0 :=
      processSources_congr sources sources' c.out_id _ c.S_main _ g1 0
        (fun k _ => Or.inl (by rw [dget_eq_of_perm hs nds k]))
    show (match processSources sources c.out_id (fun n => c.nodes.contains n) c.S_main
        (sortNames (dkeys sources)) g1 0 with
      | .error r => r
      | .ok (g2, total_supply) => _) = _
    rw [hps, hkeys]
  unfold solve_belts
  rw [hbuild]
  cases hb : build ⟨edges, sources', sink, node_caps'⟩ with
  | error r => rfl
  | ok c =>
    simp only
    rw [hafter]

/-- Witness for C9: the two-entry `sources` and `node_caps` objects
re-listed in the opposite order give the identical output document. -/
theorem c9_witness :
    solve_belts ⟨[⟨"A", "T", 0, 3⟩], [("A", 1), ("B", 2)], some "T",
        [("C", 3), ("D", 4)]⟩ =
      solve_belts ⟨[⟨"A", "T", 0, 3⟩], [("B", 2), ("A", 1)], some "T",
        [("D", 4), ("C", 3)]⟩ :=
  c9_determinism [⟨"A", "T", 0, 3⟩] (some "T") [("A", 1), ("B", 2)]
    [("B", 2), ("A", 1)] [("C", 3), ("D", 4)] [("D", 4), ("C", 3)]
    (List.Perm.swap _ _ _) (List.Perm.swap _ _ _) (by decide) (by decide)

/-! ### Claim C10 -/

/-- Replace the value stored under key `k` by `x`. -/
def setVal (l : List (String × ℚ)) (k : String) (x : ℚ) : List (String × ℚ) :=
  l.map (fun p => if p.1 == k then (p.1, x) else p)

theorem map_fst_setVal (l : List (String × ℚ)) (k : String) (x : ℚ) :
    (setVal l k x).map Prod.fst = l.map Prod.fst := by
  unfold setVal
  rw [List.map_map]
  apply List.map_congr_left
  intro p hp
  simp only [Function.comp_apply]
  split <;> rfl

theorem filter_setVal_ne (l : List (String × ℚ)) (k x : String) (v : ℚ)
    (hk : k ≠ x) :
    (setVal l x v).filter (fun p => p.1 == k) = l.filter (fun p => p.1 == k) := by
  induction l with
  | nil => rfl
  | cons p rest ih =>
    simp only [setVal, List.map_cons, List.filter_cons]
    by_cases hpx : p.1 == x
    · have hpk : ¬(p.1 == k) = true := by
        intro hc
        exact hk ((eq_of_beq hc).symm.trans (eq_of_beq hpx))
      rw [if_pos hpx]
      have h1 : (((p.1, v) : String × ℚ).1 == k) = (p.1 == k) := rfl
      rw [h1, if_neg hpk, if_neg hpk]
      exact ih
    · rw [if_neg hpx]
      by_cases hpk : p.1 == k
      · rw [if_pos hpk, if_pos hpk]
        exact congrArg (List.cons p) ih
      · rw [if_neg hpk, if_neg hpk]
        exact ih

theorem dget_setVal_ne (l : List (String × ℚ)) (k x : String) (v : ℚ) (hk : k ≠ x) :
    dget (setVal l x v) k = dget l k := by
  unfold dget
  rw [filter_setVal_ne l k x v hk]

theorem setVal_filter_val (l : List (String × ℚ)) (x : String) (v : ℚ) :
    ∀ q ∈ (setVal l x v).filter (fun p => p.1 == x), q.2 = v := by
  intro q hq
  obtain ⟨hmem, hqx⟩ := List.mem_filter.mp hq
  obtain ⟨p, hp, hfp⟩ := List.mem_map.mp hmem
  by_cases hpx : p.1 == x
  · rw [if_pos hpx] at hfp
    rw [← hfp]
  · rw [if_neg hpx] at hfp
    rw [← hfp] at hqx
    exact absurd hqx hpx

theorem dget_setVal_self_getD0 (l : List (String × ℚ)) (x : String) :
    ((dget (setVal l x 0) x).getD 0) = 0 := by
  unfold dget
  cases hE : ((setVal l x 0).filter (fun p => p.1 == x)).getLast? with
  | none => simp
  | some q =>
    have hq : q ∈ (setVal l x 0).filter (fun p => p.1 == x) :=
      List.mem_of_mem_getLast? hE
    have := setVal_filter_val l x 0 q hq
    simp [this]

theorem mem_sorted_nodes_of_source (inp : Input) (x : String)
    (hx : x ∈ inp.sources.map Prod.fst) : x ∈ sorted_nodes inp := by
  unfold sorted_nodes sortNames
  rw [(List.perm_insertionSort _ _).mem_iff, List.mem_dedup]
  unfold allNames
  refine List.mem_append.mpr (Or.inl ?_)
  refine List.mem_append.mpr (Or.inl ?_)
  exact List.mem_append.mpr (Or.inr hx)

theorem build_nodes (inp : Input) (c : Ctx) (hb : build inp = .ok c) :
    c.nodes = sorted_nodes inp := by
  unfold build at hb
  revert hb
  split
  · intro hb
    exact absurd hb (by simp)
  · intro hb
    obtain h := (Except.ok.injEq _ _).mp hb
    rw [← h]

/-- C10: a declared source with a negative supply is treated as if its
supply were zero: no `S_main` arc is created for it and it contributes
nothing to `total_supply`, so the whole output equals that of the same
input with the negative supply replaced by `0`. -/
theorem c10_negative_supply (edges : List EdgeIn) (sink : Option String)
    (sources node_caps : List (String × ℚ)) (x : String) (s : ℚ)
    (hget : dget sources x = some s) (hneg : s < 0) :
    solve_belts ⟨edges, sources, sink, node_caps⟩ =
      solve_belts ⟨edges, setVal sources x 0, sink, node_caps⟩ := by
  have hnames : sorted_nodes ⟨edges, setVal sources x 0, sink, node_caps⟩ =
      sorted_nodes ⟨edges, sources, sink, node_caps⟩ := by
    unfold sorted_nodes allNames
    rw [map_fst_setVal]
  have hsplit : isSplit ⟨edges, sources, sink, node_caps⟩ =
      isSplit ⟨edges, setVal sources x 0, sink, node_caps⟩ := by
    funext name
    unfold isSplit containsKey
    rw [map_fst_setVal]
  have hids : bIds ⟨edges, sources, sink, node_caps⟩ =
      bIds ⟨edges, setVal sources x 0, sink, node_caps⟩ := by
    unfold bIds
    rw [hnames, hsplit]
  have hbin : bInId ⟨edges, sources, sink, node_caps⟩ =
      bInId ⟨edges, setVal sources x 0, sink, node_caps⟩ := by
    funext n
    unfold bInId
    rw [hids]
  have hbout : bOutId ⟨edges, sources, sink, node_caps⟩ =
      bOutId ⟨edges, setVal sources x 0, sink, node_caps⟩ := by
    funext n
    unfold bOutId
    rw [hids]
  have hbn : bN ⟨edges, sources, sink, node_caps⟩ =
      bN ⟨edges, setVal sources x 0, sink, node_caps⟩ := by
    unfold bN
    rw [hids]
  have hsa : bSplitArcs ⟨edges, sources, sink, node_caps⟩ =
      bSplitArcs ⟨edges, setVal sources x 0, sink, node_caps⟩ := by
    unfold bSplitArcs
    rw [hnames, hbin, hbout, hbn]
  have hbuild : build ⟨edges, sources, sink, node_caps⟩ =
      build ⟨edges, setVal sources x 0, sink, node_caps⟩ := by
    unfold build
    rw [hbin, hbout, hsa, hbn, hids, hnames]
  have hxmem : x ∈ sources.map Prod.fst := by
    unfold dget at hget
    cases hE : (sources.filter (fun p => p.1 == x)).getLast? with
    | none =>
      rw [hE] at hget
      exact absurd hget (by simp)
    | some q =>
      have hq := List.mem_of_mem_getLast? hE
      obtain ⟨hmem, hqx⟩ := List.mem_filter.mp hq
      rw [← eq_of_beq hqx]
      exact List.mem_map_of_mem Prod.fst hmem
  have hxnodes : x ∈ sorted_nodes ⟨edges, sources, sink, node_caps⟩ :=
    mem_sorted_nodes_of_source _ x hxmem
  have hafter : ∀ (c : Ctx) (g1 : Graph),
      c.nodes = sorted_nodes ⟨edges, sources, sink, node_caps⟩ →
      afterLB ⟨edges, sources, sink, node_caps⟩ c g1 =
        afterLB ⟨edges, setVal sources x 0, sink, node_caps⟩ c g1 := by
    intro c g1 hcn
    unfold afterLB
    have hkeys : sortNames (dkeys (setVal sources x 0)) =
        sortNames (dkeys sources) := by
      unfold dkeys
      rw [map_fst_setVal]
    have hps : processSources sources c.out_id (fun n => c.nodes.contains n) c.S_main
        (sortNames (dkeys sources)) g1 0 =
        processSources (setVal sources x 0) c.out_id (fun n => c.nodes.contains n)
          c.S_main (sortNames (dkeys sources)) g1 0 := by
      apply processSources_congr
      intro k _
      by_cases hkx : k = x
      · subst hkx
        refine Or.inr ⟨?_, ?_, ?_⟩
        · rw [hcn]
          exact List.elem_iff.mpr hxnodes
        · rw [hget]
          show ¬(0 < if s < -EPS then 0 else s)
          split
          · exact lt_irrefl 0
          · intro hc
            exact absurd (hc.trans hneg) (lt_irrefl 0)
        · rw [dget_setVal_self_getD0]
          have : ¬((0 : ℚ) < -EPS) := by norm_num [EPS]
          rw [if_neg this]
          exact lt_irrefl 0
      · exact Or.inl (by rw [dget_setVal_ne sources k x 0 hkx])
    show (match processSources sources c.out_id (fun n => c.nodes.contains n) c.S_main
        (sortNames (dkeys sources)) g1 0 with
      | .error r => r
      | .ok (g2, total_supply) => _) = _
    rw [hps, hkeys]
  unfold solve_belts
  rw [hbuild]
  cases hb : build ⟨edges, setVal sources x 0, sink, node_caps⟩ with
  | error r => rfl
  | ok c =>
    simp only
    rw [hafter c _ ((build_nodes _ c hb).trans hnames)]

/-- Witness for C10: replacing the negative supply of `B` by `0`
leaves the output unchanged. -/
theorem c10_witness :
    solve_belts ⟨[⟨"A", "T", 0, 3⟩], [("A", 1), ("B", -2)], some "T", []⟩ =
      solve_belts ⟨[⟨"A", "T", 0, 3⟩],
        setVal [("A", 1), ("B", -2)] "B" 0, some "T", []⟩ :=
  c10_negative_supply [⟨"A", "T", 0, 3⟩] (some "T") [("A", 1), ("B", -2)] []
    "B" (-2) (by with_unfolding_all rfl) (by norm_num)

end Belts
